import Mathlib

/-!
# Verification of the AstraMind hybrid retrieval core

Shallow embedding of the retrieval core of the repository:
`src/bm25.py` (keyword index), `src/hybrid_search.py` (score normalizer,
query classifier, hybrid merger) and `src/rerank.py` (reranker), together
with the fragments of `src/llm.py` (`score_relevance`) they call.

Modelling conventions:
* Python floats are idealized as `ℚ` (every arithmetic step used by the
  code — min, max, `+`, `*`, `-`, `/` — is exact on the values involved).
* Collaborator calls (the BM25 scoring function of the third-party
  `rank_bm25` library, the embedding service, the Pinecone vector search
  and the Gemini rerank model) are passed in as explicit outcome
  parameters; `Except Unit` models "returned normally / raised".
* Python functions that can raise while mutating their input in place are
  modelled as returning the final list state together with a `raised`
  flag, mirroring CPython's observable behaviour.
* Python's `list.sort(key=..., reverse=True)` and `sorted(...)` are
  stable; their output is the unique stable descending reordering, which
  `List.insertionSort` with the reversed relation computes.
-/

namespace Astramind

/-- Python `str.split()` with no arguments: split on whitespace runs,
dropping empty pieces.  Implemented on the character list. -/
def wordsAux : List Char → List Char → List (List Char)
  | [], acc => if acc = [] then [] else [acc.reverse]
  | c :: cs, acc =>
    if c.isWhitespace then
      (if acc = [] then wordsAux cs [] else acc.reverse :: wordsAux cs [])
    else wordsAux cs (c :: acc)

/-- Python `s.split()`: the whitespace-separated words of `s`. -/
def pyWords (s : String) : List String :=
  (wordsAux s.data []).map List.asString

/-- Python `s.lower()` (ASCII behaviour). -/
def pyLower (s : String) : String :=
  (s.data.map Char.toLower).asString

/-- Python `s.strip()`: drop leading and trailing whitespace. -/
def pyStrip (s : String) : String :=
  (((s.data.dropWhile Char.isWhitespace).reverse.dropWhile Char.isWhitespace).reverse).asString

/-- `" ".join(words)`. -/
def joinWithSpace (ws : List String) : String :=
  (List.intercalate [' '] (ws.map String.data)).asString

/-- Remove duplicates keeping the first occurrence of each element. -/
def dedupKeepFirst : List String → List String
  | [] => []
  | x :: xs => x :: dedupKeepFirst (xs.filter (· ≠ x))
termination_by l => l.length
decreasing_by
  simp only [List.length_cons]
  exact Nat.lt_succ_of_le (List.length_filter_le _ _)

/-- Is the first character list an initial segment of the second? -/
def leadsWith : List Char → List Char → Bool
  | [], _ => true
  | _ :: _, [] => false
  | a :: as, b :: bs => a == b && leadsWith as bs

/-- Python's `needle in hay` on strings: substring containment, on the
character lists. -/
def containsSub (needle : List Char) : List Char → Bool
  | [] => needle.isEmpty
  | c :: rest => leadsWith needle (c :: rest) || containsSub needle rest

namespace BM25

/-- `BM25Retriever._clean_text` (src/bm25.py:28-31): replace every
non-alphanumeric, non-whitespace character by a space, then strip,
lowercase and collapse whitespace runs to single spaces. -/
def _clean_text (text : String) : String :=
  let replaced := (text.data.map (fun c => if c.isAlphanum || c.isWhitespace then c else ' ')).asString
  let lowered := pyLower (pyStrip replaced)
  joinWithSpace (pyWords lowered)

/-- `BM25Retriever._tokenize` (src/bm25.py:33-36): clean then split on
whitespace. -/
def _tokenize (text : String) : List String :=
  pyWords (_clean_text text)

/-- The mutable state of a `BM25Retriever` (src/bm25.py:18-23).  The
`BM25Okapi` model object is represented by the tokenized corpus it was
trained on (`some corpus`), or `none` for Python `None`. -/
structure State where
  documents : List String
  tokenized_docs : List (List String)
  bm25 : Option (List (List String))
deriving Repr, DecidableEq

/-- The state right after `__init__` when no stored file exists. -/
def emptyState : State := ⟨[], [], none⟩

/-- `BM25Retriever.add_documents` (src/bm25.py:41-62): skip blank strings
and strings already present in `self.documents`, append the survivors and
their tokenizations, and rebuild the model over the full tokenized corpus.
The duplicate check is against the corpus as it was before the call. -/
def add_documents (st : State) (docs : List String) : State :=
  if docs = [] then st
  else
    let new_docs := docs.filter (fun d => pyStrip d ≠ "" && !st.documents.contains d)
    if new_docs = [] then st
    else
      let documents := st.documents ++ new_docs
      let tokenized := st.tokenized_docs ++ new_docs.map _tokenize
      { documents := documents, tokenized_docs := tokenized, bm25 := some tokenized }

/-- A `{text, score}` result dictionary. -/
structure ScoredDoc where
  text : String
  score : ℚ
deriving Repr, DecidableEq

/-- Descending order on `ScoredDoc` scores, as used by
`sorted(..., key=lambda x: x[1], reverse=True)` (src/bm25.py:82). -/
def docDesc (a b : ScoredDoc) : Prop := b.score ≤ a.score

instance : DecidableRel docDesc := fun a b => inferInstanceAs (Decidable (b.score ≤ a.score))

instance : IsTotal ScoredDoc docDesc := ⟨fun a b => le_total b.score a.score⟩

instance : IsTrans ScoredDoc docDesc := ⟨fun _ _ _ h1 h2 => le_trans h2 h1⟩

/-- `BM25Retriever.retrieve` (src/bm25.py:67-85).  `getScores` stands for
`BM25Okapi.get_scores` of the third-party `rank_bm25` library (outside
this repository; the spec leaves the exact formula an implementation
choice), taking the trained tokenized corpus and the query tokens. -/
def retrieve (getScores : List (List String) → List String → List ℚ)
    (st : State) (query : String) (top_k : ℕ) : List ScoredDoc :=
  match st.bm25 with
  | none => []
  | some corpus =>
    if st.documents = [] then []
    else
      let query_tokens := _tokenize query
      if query_tokens = [] then []
      else
        let scores := getScores corpus query_tokens
        let ranked := List.insertionSort docDesc
          ((st.documents.zip scores).map (fun p => ScoredDoc.mk p.1 p.2))
        ranked.take top_k

/-- `BM25Retriever.reset` (src/bm25.py:95-108): clear both sequences and
the model (the backing-file deletion is an I/O side effect with no effect
on the in-memory state; its errors are swallowed). -/
def reset (_st : State) : State := ⟨[], [], none⟩

/-- The pair pickled by `BM25Retriever._save` (src/bm25.py:113-123). -/
def _save (st : State) : List String × List (List String) :=
  (st.documents, st.tokenized_docs)

/-- `BM25Retriever._load` (src/bm25.py:125-138) as run by `__init__`:
`none` models a missing or corrupt file (the exception is caught and the
fresh empty state is kept); `some data` models a successfully unpickled
`{"documents": _, "tokenized_docs": _}` dictionary. -/
def load_state (file : Option (List String × List (List String))) : State :=
  match file with
  | none => emptyState
  | some (docs, toks) => ⟨docs, toks, if docs = [] then none else some toks⟩

/-- The documents/tokenizations invariant of the keyword index:
`tokenized_docs` is exactly the tokenization of `documents`, position by
position (hence also of equal length). -/
def WF (st : State) : Prop := st.tokenized_docs = st.documents.map _tokenize

end BM25

namespace HybridSearch

/-- The value of a dictionary's `"score"` entry as seen by
`_normalize_scores`: `num q` for Python `int`/`float` values, `other` for
any non-numeric or absent value (those fail the `isinstance` filter, and
arithmetic on them raises). -/
inductive SVal where
  | num (q : ℚ)
  | other
deriving Repr, DecidableEq

/-- A result dictionary as consumed by `_normalize_scores`
(src/hybrid_search.py:14-33): a `"score"` entry, an optional
`"norm_score"` entry written by normalization, and the remaining payload
(the `"text"` entry for BM25 results, the metadata fields for vector
results). -/
structure NRes (β : Type) where
  score : SVal
  norm_score : Option ℚ
  payload : β
deriving Repr, DecidableEq

/-- Write `r["norm_score"] = v`. -/
def setNorm {β : Type} (v : ℚ) (r : NRes β) : NRes β := { r with norm_score := some v }

/-- The else-branch loop of `_normalize_scores`
(src/hybrid_search.py:30-31): assign
`(r["score"] - min_s) / (max_s - min_s)` to each result in order.  On the
first non-numeric score the subtraction raises; the returned pair is the
list state at that point together with a `raised` flag. -/
def normElse {β : Type} (mn mx : ℚ) : List (NRes β) → List (NRes β) × Bool
  | [] => ([], false)
  | r :: rest =>
    match r.score with
    | .num q =>
      let p := normElse mn mx rest
      (setNorm ((q - mn) / (mx - mn)) r :: p.1, p.2)
    | .other => (r :: rest, true)

/-- The `scores` list of `_normalize_scores` (src/hybrid_search.py:19):
the numeric score values, in order. -/
def numScores {β : Type} (results : List (NRes β)) : List ℚ :=
  results.filterMap (fun r => match r.score with | .num q => some q | .other => none)

/-- `_normalize_scores` (src/hybrid_search.py:14-33).  Returns the final
list state and whether the call raised (the caller's `try` block catches
the exception, keeping the partially mutated list). -/
def _normalize_scores {β : Type} (results : List (NRes β)) : List (NRes β) × Bool :=
  if results.isEmpty then (results, false)
  else
    match numScores results with
    | [] => (results.map (setNorm 0), false)
    | s :: rest =>
      let min_s := rest.foldl min s
      let max_s := rest.foldl max s
      if max_s = min_s then (results.map (setNorm 1), false)
      else normElse min_s max_s results

/-- The fixed keyword list of `_is_factoid_query`
(src/hybrid_search.py:44-47). -/
def factoid_keywords : List String :=
  ["who", "what", "where", "when", "define", "name",
   "list", "give", "show", "find", "mention", "which"]

/-- `_is_factoid_query` (src/hybrid_search.py:39-48): does any factoid
keyword occur as a substring of the lowercased query? -/
def _is_factoid_query (query : String) : Bool :=
  factoid_keywords.any (fun k => containsSub k.data (pyLower query).data)

/-- The dynamic-alpha adjustment at the top of `hybrid_search`
(src/hybrid_search.py:79-82). -/
def effective_alpha (query : String) (alpha : ℚ) : ℚ :=
  if _is_factoid_query query then max 0.2 (min alpha 0.4) else max alpha 0.6

/-- The fields of a vector-search result dictionary inspected by
`extract_text_from_vector_result`: `metadata["text"]`,
`metadata["content"]` and the top-level `"text"` entry.  `none` models an
absent key (or, for the whole metadata dictionary, absent/`None`
metadata, whose `get` calls all miss). -/
structure VMeta where
  metaText : Option String
  metaContent : Option String
  topText : Option String
deriving Repr, DecidableEq

/-- Python's `a or b` specialized to optional strings: `a` unless it is
absent/`None` or the empty string (falsy), else `b`. -/
def pyOr (a b : Option String) : Option String :=
  match a with
  | some s => if s = "" then b else some s
  | none => b

/-- `extract_text_from_vector_result` (src/hybrid_search.py:54-62):
`meta.get("text") or meta.get("content") or result.get("text") or ""`. -/
def extract_text_from_vector_result (v : VMeta) : String :=
  (pyOr (pyOr v.metaText v.metaContent) v.topText).getD ""

/-- A keyword-branch result dictionary: payload is its `"text"` entry. -/
abbrev KwRes := NRes String

/-- A dense-branch result dictionary: payload is its text-carrying
fields. -/
abbrev VecRes := NRes VMeta

/-- One `combined_scores[text] = combined_scores.get(text, 0.0) + w`
step (src/hybrid_search.py:118,124).  A Python dict is insertion-ordered:
updating an existing key keeps its position, a new key is appended. -/
def addToMap (m : List (String × ℚ)) (key : String) (w : ℚ) : List (String × ℚ) :=
  if m.any (fun p => p.1 = key) then
    m.map (fun p => if p.1 = key then (p.1, p.2 + w) else p)
  else m ++ [(key, w)]

/-- The merge loops of `hybrid_search` (src/hybrid_search.py:113-124):
accumulate `(1 - alpha) * norm_score` per keyword text and
`alpha * norm_score` per extracted vector text, skipping empty (falsy)
texts. -/
def combineScores (alpha : ℚ) (bm25_results : List KwRes) (vector_results : List VecRes) :
    List (String × ℚ) :=
  let m1 := bm25_results.foldl (fun m doc =>
    let text := doc.payload
    let score := doc.norm_score.getD 0
    if text ≠ "" then addToMap m text ((1 - alpha) * score) else m) []
  vector_results.foldl (fun m item =>
    let text := extract_text_from_vector_result item.payload
    let score := item.norm_score.getD 0
    if text ≠ "" then addToMap m text (alpha * score) else m) m1

/-- Dictionary lookup on the insertion-ordered association list (first
matching key; `combineScores` keeps keys unique).  Analysis helper for
stating properties of the merged map. -/
def mget (m : List (String × ℚ)) (key : String) : Option ℚ :=
  match m with
  | [] => none
  | p :: rest => if p.1 = key then some p.2 else mget rest key

/-- A merged/reranked result dictionary: `{"text": _, "score": _}` plus
the optional `"rerank_score"` entry the reranker may add. -/
structure RDoc where
  text : String
  score : ℚ
  rerank_score : Option ℚ
deriving Repr, DecidableEq

/-- Descending order on `RDoc.score`, as used by
`combined_list.sort(key=lambda x: x["score"], reverse=True)`
(src/hybrid_search.py:136). -/
def rdocDesc (a b : RDoc) : Prop := b.score ≤ a.score

instance : DecidableRel rdocDesc := fun a b => inferInstanceAs (Decidable (b.score ≤ a.score))

instance : IsTotal RDoc rdocDesc := ⟨fun a b => le_total b.score a.score⟩

instance : IsTrans RDoc rdocDesc := ⟨fun _ _ _ h1 h2 => le_trans h2 h1⟩

/-- Steps 3-4 of `hybrid_search` (src/hybrid_search.py:113-137) without
the final reranking: merge, drop whitespace-only keys, stable-sort
descending by score, truncate to `top_k`.  Returns `none` when the merged
map is empty (the early `return []`). -/
def mergedTop (alpha : ℚ) (bm25_results : List KwRes) (vector_results : List VecRes)
    (top_k : ℕ) : Option (List RDoc) :=
  let combined_scores := combineScores alpha bm25_results vector_results
  if combined_scores = [] then none
  else
    let combined_list := (combined_scores.filter (fun p => pyStrip p.1 ≠ "")).map
      (fun p => RDoc.mk p.1 p.2 none)
    some ((List.insertionSort rdocDesc combined_list).take top_k)

end HybridSearch

namespace Llm

/-- `score_relevance` (src/llm.py:58-64): token-set overlap
`|q ∩ t| / (|q| + 1)` where `q`, `t` are the sets of lowercased
whitespace-split words. -/
def score_relevance (query text : String) : ℚ :=
  let q := (pyWords (pyLower query)).dedup
  let t := pyWords (pyLower text)
  ((q.filter (fun w => t.contains w)).length : ℚ) / ((q.length : ℚ) + 1)

end Llm

namespace Rerank

open HybridSearch (RDoc)

/-- `_lexical_rerank` (src/rerank.py:47-57): score every candidate with
`score_relevance` into fresh dictionaries `{**d, "rerank_score": _}`. -/
def _lexical_rerank (query : String) (docs : List RDoc) : List RDoc :=
  docs.map (fun d => { d with rerank_score := some (Llm.score_relevance query d.text) })

/-- A Python value produced by `json.loads`.  `num q isInt` distinguishes
`int` from `float` results (a `float` used as a list index raises even
when integral). -/
inductive JVal where
  | null
  | bool (b : Bool)
  | num (q : ℚ) (isInt : Bool)
  | str (s : String)
  | arr (items : List JVal)
  | obj (members : List (String × JVal))

/-- JSON insignificant whitespace. -/
def skipWs (cs : List Char) : List Char :=
  cs.dropWhile (fun c => c == ' ' || c == '\t' || c == '\n' || c == '\r')

/-- Decimal digits prefix of a character list. -/
def takeDigits (cs : List Char) : List Char × List Char :=
  (cs.takeWhile Char.isDigit, cs.dropWhile Char.isDigit)

/-- Numeric value of a digit string. -/
def digitsToNat (ds : List Char) : ℕ :=
  ds.foldl (fun n c => 10 * n + (c.toNat - 48)) 0

/-- Parse a JSON number (`-? digits frac? exp?`).  Returns the value, an
is-integer flag (no fraction and no exponent, matching which Python type
`json.loads` produces) and the remaining input. -/
def parseNumber (cs : List Char) : Option (ℚ × Bool × List Char) :=
  let sign : ℚ × List Char := match cs with
    | '-' :: rest => (-1, rest)
    | _ => (1, cs)
  let (ip, cs2) := takeDigits sign.2
  if ip.isEmpty then none
  else
    let frac : Option (List Char × List Char) := match cs2 with
      | '.' :: rest =>
        let (fp, cs3) := takeDigits rest
        if fp.isEmpty then none else some (fp, cs3)
      | _ => some ([], cs2)
    match frac with
    | none => none
    | some (fp, cs3) =>
      let expPart : Option (Bool × ℤ × List Char) := match cs3 with
        | 'e' :: rest | 'E' :: rest =>
          let sgn : ℤ × List Char := match rest with
            | '-' :: r2 => (-1, r2)
            | '+' :: r2 => (1, r2)
            | _ => (1, rest)
          let (ed, cs4) := takeDigits sgn.2
          if ed.isEmpty then none else some (true, sgn.1 * (digitsToNat ed : ℤ), cs4)
        | _ => some (false, 0, cs3)
      match expPart with
      | none => none
      | some (hasExp, e, cs4) =>
        let mant : ℚ := (digitsToNat (ip ++ fp) : ℚ)
        let value : ℚ := sign.1 * mant * (10 : ℚ) ^ (e - (fp.length : ℤ))
        some (value, fp.isEmpty && !hasExp, cs4)

/-- Parse a JSON string body after the opening quote; returns the decoded
characters and the input after the closing quote.  `\uXXXX` escapes are
not modelled (no input considered here contains them). -/
def parseStringBody : ℕ → List Char → Option (List Char × List Char)
  | 0, _ => none
  | _ + 1, [] => none
  | fuel + 1, c :: rest =>
    if c == '"' then some ([], rest)
    else if c == '\\' then
      match rest with
      | [] => none
      | e :: rest2 =>
        let ec : Option Char :=
          if e == '"' then some '"' else if e == '\\' then some '\\'
          else if e == '/' then some '/' else if e == 'n' then some '\n'
          else if e == 't' then some '\t' else if e == 'r' then some '\r'
          else if e == 'b' then some (Char.ofNat 8) else if e == 'f' then some (Char.ofNat 12)
          else none
        match ec with
        | none => none
        | some ch => (parseStringBody fuel rest2).map (fun p => (ch :: p.1, p.2))
    else (parseStringBody fuel rest).map (fun p => (c :: p.1, p.2))

mutual

/-- Parse one JSON value (fuel-indexed model of the recursive descent in
Python's `json` module; leading-zero strictness and `NaN`/`Infinity`
extensions are not modelled, and no input considered here hits them). -/
def parseVal : ℕ → List Char → Option (JVal × List Char)
  | 0, _ => none
  | fuel + 1, cs0 =>
    let cs := skipWs cs0
    match cs with
    | [] => none
    | c :: rest =>
      if c == '{' then
        match skipWs rest with
        | '}' :: r2 => some (.obj [], r2)
        | r2 => parseMembers fuel r2 []
      else if c == '[' then
        match skipWs rest with
        | ']' :: r2 => some (.arr [], r2)
        | r2 => parseItems fuel r2 []
      else if c == '"' then
        (parseStringBody (rest.length + 1) rest).map (fun p => (.str p.1.asString, p.2))
      else if leadsWith ['t', 'r', 'u', 'e'] cs then some (.bool true, cs.drop 4)
      else if leadsWith ['f', 'a', 'l', 's', 'e'] cs then some (.bool false, cs.drop 5)
      else if leadsWith ['n', 'u', 'l', 'l'] cs then some (.null, cs.drop 4)
      else
        match parseNumber cs with
        | none => none
        | some (q, isInt, rest2) => some (.num q isInt, rest2)

/-- Parse the items of a non-empty JSON array after its `[`. -/
def parseItems : ℕ → List Char → List JVal → Option (JVal × List Char)
  | 0, _, _ => none
  | fuel + 1, cs, acc =>
    match parseVal fuel cs with
    | none => none
    | some (v, rest) =>
      match skipWs rest with
      | ',' :: r2 => parseItems fuel r2 (acc ++ [v])
      | ']' :: r2 => some (.arr (acc ++ [v]), r2)
      | _ => none

/-- Parse the members of a non-empty JSON object after its `{`. -/
def parseMembers : ℕ → List Char → List (String × JVal) → Option (JVal × List Char)
  | 0, _, _ => none
  | fuel + 1, cs, acc =>
    match skipWs cs with
    | '"' :: rest =>
      match parseStringBody (rest.length + 1) rest with
      | none => none
      | some (key, r2) =>
        match skipWs r2 with
        | ':' :: r3 =>
          match parseVal fuel r3 with
          | none => none
          | some (v, r4) =>
            match skipWs r4 with
            | ',' :: r5 => parseMembers fuel r5 (acc ++ [(key.asString, v)])
            | '}' :: r5 => some (.obj (acc ++ [(key.asString, v)]), r5)
            | _ => none
        | _ => none
    | _ => none

end

/-- `json.loads` (as used at src/rerank.py:102): parse the whole string
as one JSON value, `none` for `JSONDecodeError`. -/
def jsonParse (s : String) : Option JVal :=
  match parseVal (2 * s.data.length + 4) s.data with
  | none => none
  | some (v, rest) => if (skipWs rest).isEmpty then some v else none

/-- `re.search(r"\[.*\]", text, re.DOTALL)` followed by `.group(0)`
(src/rerank.py:98): with greedy matching this is the span from the first
`[` to the last `]`, provided that `]` comes after that `[`. -/
def spanExtract (s : String) : Option String :=
  let cs := s.data
  match cs.findIdx? (· == '['), cs.reverse.findIdx? (· == ']') with
  | some i, some jr =>
    let j := cs.length - 1 - jr
    if i < j then some (((cs.drop i).take (j - i + 1)).asString) else none
  | _, _ => none

/-- `dict.get` on a parsed JSON object (`json.loads` keeps the last
occurrence of a duplicated key). -/
def lookupObj (kvs : List (String × JVal)) (key : String) : Option JVal :=
  kvs.reverse.lookup key

/-- Python `float(x)` on a string argument: strip whitespace, then parse
a signed decimal literal (`1`, `-2.5`, `.5`, `5.`, `1e3`).
`inf`/`nan` spellings are not modelled (no input considered here uses
them). -/
def pyFloatOfString (s : String) : Except Unit ℚ :=
  let cs := (skipWs s.data.reverse).reverse
  let cs := skipWs cs
  let sign : ℚ × List Char := match cs with
    | '-' :: rest => (-1, rest)
    | '+' :: rest => (1, rest)
    | _ => (1, cs)
  let (ip, cs2) := takeDigits sign.2
  let frac : List Char × List Char := match cs2 with
    | '.' :: rest => takeDigits rest
    | _ => ([], cs2)
  if ip.isEmpty && frac.1.isEmpty then .error ()
  else
    let expPart : Option (ℤ × List Char) := match frac.2 with
      | 'e' :: rest | 'E' :: rest =>
        let sgn : ℤ × List Char := match rest with
          | '-' :: r2 => (-1, r2)
          | '+' :: r2 => (1, r2)
          | _ => (1, rest)
        let (ed, cs4) := takeDigits sgn.2
        if ed.isEmpty then none else some (sgn.1 * (digitsToNat ed : ℤ), cs4)
      | _ => some (0, frac.2)
    match expPart with
    | none => .error ()
    | some (e, cs4) =>
      if cs4.isEmpty then
        .ok (sign.1 * (digitsToNat (ip ++ frac.1) : ℚ) * (10 : ℚ) ^ (e - (frac.1.length : ℤ)))
      else .error ()

/-- Python `float(x)` on a parsed JSON value.  `float(True) = 1.0`;
`float(None)`, `float(list)`, `float(dict)` raise `TypeError`. -/
def pyFloat : JVal → Except Unit ℚ
  | .num q _ => .ok q
  | .bool b => .ok (if b then 1 else 0)
  | .str s => pyFloatOfString s
  | _ => .error ()

/-- One iteration of the score-mapping loop in `_semantic_rerank`
(src/rerank.py:108-112): evaluate `item.get("index")` (raises on a
non-dict item), `float(item.get("score", 0))`, then the truthiness and
range test `if idx and 1 <= idx <= len(docs)`.  Returns the zero-based
assignment position and score, `none` for a skipped item, `.error` for a
raised exception (which the enclosing `except` turns into the lexical
fallback). -/
def procItem (ndocs : ℕ) : JVal → Except Unit (Option (ℕ × ℚ))
  | .obj kvs => do
    let idx := lookupObj kvs "index"
    let score ← pyFloat ((lookupObj kvs "score").getD (.num 0 true))
    match idx with
    | none => pure none
    | some .null => pure none
    | some (.bool b) =>
      if b then (if 1 ≤ ndocs then pure (some (0, score)) else pure none) else pure none
    | some (.num q isInt) =>
      if q = 0 then pure none
      else if 1 ≤ q ∧ q ≤ (ndocs : ℚ) then
        if isInt then pure (some (q.num.toNat - 1, score)) else .error ()
      else pure none
    | some (.str s) => if s = "" then pure none else .error ()
    | some (.arr items) => if items.isEmpty then pure none else .error ()
    | some (.obj ms) => if ms.isEmpty then pure none else .error ()
  | _ => .error ()

/-- `docs[i]["rerank_score"] = v`. -/
def setRerankAt (i : ℕ) (v : ℚ) : List RDoc → List RDoc
  | [] => []
  | d :: rest =>
    match i with
    | 0 => { d with rerank_score := some v } :: rest
    | n + 1 => d :: setRerankAt n v rest

/-- The whole score-mapping loop of `_semantic_rerank`: returns the list
state when the loop finishes or raises, together with a `raised` flag. -/
def applyAssignments (docs : List RDoc) : List JVal → List RDoc × Bool
  | [] => (docs, false)
  | item :: rest =>
    match procItem docs.length item with
    | .error _ => (docs, true)
    | .ok none => applyAssignments docs rest
    | .ok (some (i, score)) => applyAssignments (setRerankAt i score docs) rest

/-- `_semantic_rerank` (src/rerank.py:63-125).  `gem` is the outcome of
the `model.generate_content` call: `.error` for a raised exception,
`.ok s` for a response whose `text` attribute is `s`.  Every exception
inside the `try` block falls back to `_lexical_rerank` on the current
(possibly partially score-assigned) list state.  A successfully parsed
`json_str` always yields a list, since the extracted span starts with
`[`; the catch-all `.arr`-mismatch case mirrors the `TypeError` raised
when iterating a non-iterable. -/
def _semantic_rerank (gem : Except Unit String) (query : String) (docs : List RDoc) :
    List RDoc :=
  if docs.isEmpty then []
  else
    match gem with
    | .error _ => _lexical_rerank query docs
    | .ok responseText =>
      match jsonParse ((spanExtract (pyStrip responseText)).getD "[]") with
      | none => _lexical_rerank query docs
      | some (.arr parsed) =>
        match applyAssignments docs parsed with
        | (docs2, true) => _lexical_rerank query docs2
        | (docs2, false) =>
          docs2.map (fun d =>
            if d.rerank_score.isNone then { d with rerank_score := some 0 } else d)
      | some _ => _lexical_rerank query docs

/-- `_normalize_scores` of the reranker (src/rerank.py:29-36): min-max
scaling of a plain score list, all-`1.0` when the scores are uniform. -/
def _normalize_scores (scores : List ℚ) : List ℚ :=
  match scores with
  | [] => []
  | s :: rest =>
    let min_s := rest.foldl min s
    let max_s := rest.foldl max s
    if max_s = min_s then scores.map (fun _ => 1)
    else scores.map (fun x => (x - min_s) / (max_s - min_s))

/-- Descending order on `rerank_score`, as used by
`sorted(reranked, key=lambda x: x["rerank_score"], reverse=True)`
(src/rerank.py:155); every entry carries a score at that point. -/
def rerankDesc (a b : RDoc) : Prop := b.rerank_score.getD 0 ≤ a.rerank_score.getD 0

instance : DecidableRel rerankDesc :=
  fun a b => inferInstanceAs (Decidable (b.rerank_score.getD 0 ≤ a.rerank_score.getD 0))

instance : IsTotal RDoc rerankDesc :=
  ⟨fun a b => le_total (b.rerank_score.getD 0) (a.rerank_score.getD 0)⟩

instance : IsTrans RDoc rerankDesc := ⟨fun _ _ _ h1 h2 => le_trans h2 h1⟩

/-- `rerank_results` (src/rerank.py:131-161).  `useSemantic` is the
module-level `USE_SEMANTIC_RERANKER` flag (presence of a Gemini API
key).  For dictionaries of this shape every step of the `try` block is
total, so the catch-all `return retrieved_chunks[:top_n]` is not
reachable. -/
def rerank_results (useSemantic : Bool) (gem : Except Unit String) (query : String)
    (retrieved_chunks : List RDoc) (top_n : ℕ) : List RDoc :=
  if retrieved_chunks.isEmpty then []
  else
    (List.insertionSort rerankDesc
      (List.zipWith (fun r v => { r with rerank_score := some v })
        (if useSemantic then _semantic_rerank gem query retrieved_chunks
         else _lexical_rerank query retrieved_chunks)
        (_normalize_scores
          ((if useSemantic then _semantic_rerank gem query retrieved_chunks
            else _lexical_rerank query retrieved_chunks).map
            (fun r => r.rerank_score.getD 0))))).take top_n

end Rerank

namespace HybridSearch

/-- `hybrid_search` (src/hybrid_search.py:68-157).  Collaborator-call
outcomes are explicit: `kw` for `bm25.retrieve` (already shaped as result
dictionaries), `emb` for `embed_query` (`.ok none` models a `None`
embedding), `vec` for `vector_search`, and `useSemantic`/`gem` for the
reranker's configuration and model call.  A branch whose collaborator
raises contributes its current list state (`[]`, or the partially
normalized list when `_normalize_scores` raises).  The reranker is total
for these dictionaries, so its surrounding `try` always keeps its result,
and the outer catch-all never fires. -/
def hybrid_search (useSemantic : Bool) (gem : Except Unit String)
    (kw : Except Unit (List KwRes)) (emb : Except Unit (Option Unit))
    (vec : Except Unit (List VecRes)) (query : String) (alpha : ℚ) (top_k : ℕ) :
    List RDoc :=
  match mergedTop (effective_alpha query alpha)
      (match kw with
       | .error _ => []
       | .ok rs => (_normalize_scores rs).1)
      (match emb with
       | .error _ => []
       | .ok none => []
       | .ok (some _) =>
         match vec with
         | .error _ => []
         | .ok vs => (_normalize_scores vs).1)
      top_k with
  | none => []
  | some top_results => Rerank.rerank_results useSemantic gem query top_results top_k

/-- The list described by claim C1's parenthetical — "the keyword
branch's normalized scores weighted by `(1 - alpha)`, sorted descending,
truncated to `top_k`" — written from those words for comparison with the
pipeline. -/
def keywordOnlyRanked (alpha : ℚ) (kws : List KwRes) (top_k : ℕ) : List RDoc :=
  let weighted := (_normalize_scores kws).1.map
    (fun r => RDoc.mk r.payload ((1 - alpha) * r.norm_score.getD 0) none)
  (List.insertionSort rdocDesc weighted).take top_k

/-- The first-contribution order of merged-map keys, written from claim
C10's words: the keyword-branch texts in keyword-rank order, then the
vector-only texts in vector-rank order, first occurrences only, empty
texts dropped. -/
def firstContributionOrder (bm25_results : List KwRes) (vector_results : List VecRes) :
    List String :=
  let kwTexts := dedupKeepFirst ((bm25_results.map (fun r => r.payload)).filter (fun t => t ≠ ""))
  let vecTexts := dedupKeepFirst
    (((vector_results.map (fun r => extract_text_from_vector_result r.payload)).filter
      (fun t => t ≠ "")).filter (fun t => t ∉ kwTexts))
  kwTexts ++ vecTexts

end HybridSearch

/-! ## Helper lemmas -/

theorem foldl_min_mem (rest : List ℚ) (s : ℚ) : rest.foldl min s ∈ s :: rest := by
  induction rest generalizing s with
  | nil => simp [List.foldl]
  | cons r rest ih =>
    have h := ih (min s r)
    rcases List.mem_cons.mp h with h | h
    · rcases min_choice s r with hc | hc <;> rw [List.foldl_cons, h, hc] <;> simp
    · simp [List.foldl_cons, List.mem_cons.mpr (Or.inr (List.mem_cons.mpr (Or.inr h)))]

theorem foldl_min_le (rest : List ℚ) (s : ℚ) : ∀ x ∈ s :: rest, rest.foldl min s ≤ x := by
  induction rest generalizing s with
  | nil => intro x hx; simp at hx; simp [hx]
  | cons r rest ih =>
    intro x hx
    rcases List.mem_cons.mp hx with h | hx2
    · calc rest.foldl min (min s r) ≤ min s r :=
            ih (min s r) (min s r) (List.mem_cons_self _ _)
        _ ≤ s := min_le_left _ _
        _ = x := h.symm
    · rcases List.mem_cons.mp hx2 with h | h
      · calc rest.foldl min (min s r) ≤ min s r :=
              ih (min s r) (min s r) (List.mem_cons_self _ _)
          _ ≤ r := min_le_right _ _
          _ = x := h.symm
      · exact ih (min s r) x (List.mem_cons.mpr (Or.inr h))

theorem foldl_max_mem (rest : List ℚ) (s : ℚ) : rest.foldl max s ∈ s :: rest := by
  induction rest generalizing s with
  | nil => simp [List.foldl]
  | cons r rest ih =>
    have h := ih (max s r)
    rcases List.mem_cons.mp h with h | h
    · rcases max_choice s r with hc | hc <;> rw [List.foldl_cons, h, hc] <;> simp
    · simp [List.foldl_cons, List.mem_cons.mpr (Or.inr (List.mem_cons.mpr (Or.inr h)))]

theorem le_foldl_max (rest : List ℚ) (s : ℚ) : ∀ x ∈ s :: rest, x ≤ rest.foldl max s := by
  induction rest generalizing s with
  | nil => intro x hx; simp at hx; simp [hx]
  | cons r rest ih =>
    intro x hx
    rcases List.mem_cons.mp hx with h | hx2
    · calc x = s := h
        _ ≤ max s r := le_max_left _ _
        _ ≤ rest.foldl max (max s r) := ih (max s r) (max s r) (List.mem_cons_self _ _)
    · rcases List.mem_cons.mp hx2 with h | h
      · calc x = r := h
          _ ≤ max s r := le_max_right _ _
          _ ≤ rest.foldl max (max s r) := ih (max s r) (max s r) (List.mem_cons_self _ _)
      · exact ih (max s r) x (List.mem_cons.mpr (Or.inr h))

/-! ## Claim theorems -/

attribute [local semireducible] Rat.mul Rat.add Rat.sub Rat.inv Rat.ofScientific

theorem normElse_all_num {β : Type} (mn mx : ℚ) (results : List (HybridSearch.NRes β))
    (h : ∀ r ∈ results, r.score ≠ HybridSearch.SVal.other) :
    HybridSearch.normElse mn mx results =
      (results.map (fun r => match r.score with
        | .num q => HybridSearch.setNorm ((q - mn) / (mx - mn)) r
        | .other => r), false) := by
  induction results with
  | nil => rfl
  | cons r rest ih =>
    have hr := h r (List.mem_cons_self _ _)
    unfold HybridSearch.normElse
    match hs : r.score with
    | .other => exact absurd hs hr
    | .num q =>
      rw [ih (fun x hx => h x (List.mem_cons.mpr (Or.inr hx)))]
      simp [hs]

theorem mem_numScores {β : Type} {results : List (HybridSearch.NRes β)}
    {r : HybridSearch.NRes β} {q : ℚ} (hr : r ∈ results)
    (hq : r.score = HybridSearch.SVal.num q) : q ∈ HybridSearch.numScores results := by
  unfold HybridSearch.numScores
  exact List.mem_filterMap.mpr ⟨r, hr, by rw [hq]⟩

theorem mget_map_update (m : List (String × ℚ)) (k : String) (w : ℚ) (t : String) :
    HybridSearch.mget (m.map (fun p => if p.1 = k then (p.1, p.2 + w) else p)) t =
      if t = k then (HybridSearch.mget m k).map (· + w) else HybridSearch.mget m t := by
  induction m with
  | nil => by_cases h : t = k <;> simp [HybridSearch.mget, h]
  | cons p rest ih =>
    rw [List.map_cons]
    by_cases ht : t = k
    · subst ht
      by_cases hp : p.1 = t
      · simp [HybridSearch.mget, hp]
      · simp [HybridSearch.mget, hp, ih]
    · by_cases hp : p.1 = k
      · have hpt : ¬p.1 = t := fun h => ht (h.symm.trans hp)
        have hkt : ¬k = t := fun h => ht h.symm
        simp [HybridSearch.mget, hp, hpt, ht, hkt, ih]
      · by_cases hpt : p.1 = t
        · simp [HybridSearch.mget, hp, hpt, ht]
        · simp [HybridSearch.mget, hp, hpt, ht, ih]

theorem mget_of_any_eq_false (m : List (String × ℚ)) (k : String)
    (h : m.any (fun p => p.1 = k) = false) : HybridSearch.mget m k = none := by
  induction m with
  | nil => rfl
  | cons p rest ih =>
    rw [List.any_cons, Bool.or_eq_false_iff] at h
    have hp : ¬p.1 = k := by
      intro he
      have := h.1
      rw [he] at this
      simp at this
    rw [HybridSearch.mget, if_neg hp]
    exact ih h.2

theorem mget_ne_none_of_any (m : List (String × ℚ)) (k : String)
    (h : m.any (fun p => p.1 = k) = true) : HybridSearch.mget m k ≠ none := by
  induction m with
  | nil => simp at h
  | cons p rest ih =>
    rw [List.any_cons, Bool.or_eq_true] at h
    rw [HybridSearch.mget]
    by_cases hp : p.1 = k
    · rw [if_pos hp]; simp
    · rw [if_neg hp]
      rcases h with h | h
      · exact absurd (of_decide_eq_true h) hp
      · exact ih h

theorem mget_append_right (m : List (String × ℚ)) (k : String) (w : ℚ)
    (h : HybridSearch.mget m k = none) : HybridSearch.mget (m ++ [(k, w)]) k = some w := by
  induction m with
  | nil => simp [HybridSearch.mget]
  | cons p rest ih =>
    rw [HybridSearch.mget] at h
    by_cases hp : p.1 = k
    · rw [if_pos hp] at h; exact absurd h (by simp)
    · rw [if_neg hp] at h
      rw [List.cons_append, HybridSearch.mget, if_neg hp]
      exact ih h

theorem mget_append_ne (m : List (String × ℚ)) (k : String) (w : ℚ) (t : String)
    (h : t ≠ k) : HybridSearch.mget (m ++ [(k, w)]) t = HybridSearch.mget m t := by
  induction m with
  | nil =>
    have hkt : ¬k = t := fun he => h he.symm
    show HybridSearch.mget [(k, w)] t = HybridSearch.mget [] t
    simp [HybridSearch.mget, hkt]
  | cons p rest ih =>
    rw [List.cons_append, HybridSearch.mget, HybridSearch.mget]
    by_cases hp : p.1 = t
    · rw [if_pos hp, if_pos hp]
    · rw [if_neg hp, if_neg hp, ih]

theorem addToMap_mget_self (m : List (String × ℚ)) (k : String) (w : ℚ) :
    HybridSearch.mget (HybridSearch.addToMap m k w) k =
      some ((HybridSearch.mget m k).getD 0 + w) := by
  unfold HybridSearch.addToMap
  cases hany : m.any (fun p => p.1 = k) with
  | false =>
    rw [if_neg Bool.false_ne_true]
    have hnone := mget_of_any_eq_false m k hany
    rw [mget_append_right m k w hnone, hnone]
    simp
  | true =>
    rw [if_pos rfl, mget_map_update, if_pos rfl]
    rcases hl : HybridSearch.mget m k with _ | v
    · exact absurd hl (mget_ne_none_of_any m k hany)
    · simp

theorem addToMap_mget_ne (m : List (String × ℚ)) (k : String) (w : ℚ) (t : String)
    (h : t ≠ k) :
    HybridSearch.mget (HybridSearch.addToMap m k w) t = HybridSearch.mget m t := by
  unfold HybridSearch.addToMap
  cases hany : m.any (fun p => p.1 = k) with
  | false =>
    rw [if_neg Bool.false_ne_true]
    exact mget_append_ne m k w t h
  | true => rw [if_pos rfl, mget_map_update, if_neg h]

theorem addToMap_keys (m : List (String × ℚ)) (k : String) (w : ℚ) :
    (HybridSearch.addToMap m k w).map Prod.fst = m.map Prod.fst
    ∨ ((HybridSearch.addToMap m k w).map Prod.fst = m.map Prod.fst ++ [k]
        ∧ HybridSearch.mget m k = none) := by
  unfold HybridSearch.addToMap
  cases hany : m.any (fun p => p.1 = k) with
  | true =>
    left
    rw [if_pos rfl, List.map_map]
    congr 1
    funext p
    by_cases hp : p.1 = k <;> simp [hp]
  | false =>
    right
    rw [if_neg Bool.false_ne_true]
    exact ⟨by simp, mget_of_any_eq_false m k hany⟩

theorem mget_ne_none_of_mem_keys (m : List (String × ℚ)) (a : String)
    (ha : a ∈ m.map Prod.fst) : HybridSearch.mget m a ≠ none := by
  induction m with
  | nil => simp at ha
  | cons q rest ih =>
    rw [List.map_cons, List.mem_cons] at ha
    rw [HybridSearch.mget]
    by_cases hq : q.1 = a
    · rw [if_pos hq]; simp
    · rw [if_neg hq]
      rcases ha with h | h
      · exact absurd h.symm hq
      · exact ih h

theorem addToMap_nodup (m : List (String × ℚ)) (k : String) (w : ℚ)
    (h : (m.map Prod.fst).Nodup) :
    ((HybridSearch.addToMap m k w).map Prod.fst).Nodup := by
  rcases addToMap_keys m k w with hk | ⟨hk, hnone⟩
  · rw [hk]; exact h
  · rw [hk]
    rw [List.nodup_append]
    refine ⟨h, List.nodup_singleton k, ?_⟩
    intro a ha hb
    have hak : a = k := by simpa using hb
    subst hak
    exact mget_ne_none_of_mem_keys m a ha hnone

theorem sum_map_mul (c : ℚ) {γ : Type} (l : List γ) (f : γ → ℚ) :
    (l.map (fun x => c * f x)).sum = c * (l.map f).sum := by
  induction l with
  | nil => simp
  | cons x xs ih => simp [ih, mul_add]

theorem foldl_addToMap_mget {γ : Type} (keyf : γ → String) (wf : γ → ℚ)
    (items : List γ) (m0 : List (String × ℚ)) (t : String) (ht : t ≠ "") :
    ((HybridSearch.mget (items.foldl (fun m it =>
        if keyf it ≠ "" then HybridSearch.addToMap m (keyf it) (wf it) else m) m0) t).getD 0)
      = ((HybridSearch.mget m0 t).getD 0)
        + ((items.filter (fun it => keyf it = t)).map wf).sum := by
  induction items generalizing m0 with
  | nil => simp
  | cons it rest ih =>
    rw [List.foldl_cons]
    by_cases hk : keyf it ≠ ""
    · rw [if_pos hk]
      by_cases hkt : keyf it = t
      · have hfil : (it :: rest).filter (fun it => keyf it = t) =
            it :: rest.filter (fun it => keyf it = t) := by
          rw [List.filter_cons, if_pos (by simpa using hkt)]
        rw [hfil, List.map_cons, List.sum_cons, ih _, ← hkt,
          addToMap_mget_self m0 (keyf it) (wf it)]
        show (HybridSearch.mget m0 (keyf it)).getD 0 + wf it + _ = _
        ring
      · have hfil : (it :: rest).filter (fun it => keyf it = t) =
            rest.filter (fun it => keyf it = t) := by
          rw [List.filter_cons, if_neg (by simpa using hkt)]
        rw [hfil, ih _, addToMap_mget_ne m0 (keyf it) (wf it) t (fun h => hkt h.symm)]
    · rw [if_neg hk]
      push_neg at hk
      have hfil : (it :: rest).filter (fun it => keyf it = t) =
          rest.filter (fun it => keyf it = t) := by
        rw [List.filter_cons, if_neg (by simp [hk]; exact fun h => ht (h ▸ rfl))]
      rw [hfil, ih]

theorem foldl_addToMap_mget_empty {γ : Type} (keyf : γ → String) (wf : γ → ℚ)
    (items : List γ) (m0 : List (String × ℚ)) :
    HybridSearch.mget (items.foldl (fun m it =>
        if keyf it ≠ "" then HybridSearch.addToMap m (keyf it) (wf it) else m) m0) ""
      = HybridSearch.mget m0 "" := by
  induction items generalizing m0 with
  | nil => rfl
  | cons it rest ih =>
    rw [List.foldl_cons]
    by_cases hk : keyf it ≠ ""
    · rw [if_pos hk, ih, addToMap_mget_ne m0 (keyf it) (wf it) "" (fun h => hk h.symm)]
    · rw [if_neg hk, ih]

theorem foldl_addToMap_nodup {γ : Type} (keyf : γ → String) (wf : γ → ℚ)
    (items : List γ) (m0 : List (String × ℚ)) (h : (m0.map Prod.fst).Nodup) :
    (((items.foldl (fun m it =>
        if keyf it ≠ "" then HybridSearch.addToMap m (keyf it) (wf it) else m) m0).map
        Prod.fst).Nodup) := by
  induction items generalizing m0 with
  | nil => exact h
  | cons it rest ih =>
    rw [List.foldl_cons]
    by_cases hk : keyf it ≠ ""
    · rw [if_pos hk]
      exact ih _ (addToMap_nodup m0 (keyf it) (wf it) h)
    · rw [if_neg hk]
      exact ih _ h

theorem kw_fold_mget (alpha : ℚ) (bm : List HybridSearch.KwRes)
    (m0 : List (String × ℚ)) (t : String) (ht : t ≠ "") :
    (HybridSearch.mget (bm.foldl (fun m doc =>
        if doc.payload ≠ "" then
          HybridSearch.addToMap m doc.payload ((1 - alpha) * doc.norm_score.getD 0)
        else m) m0) t).getD 0
      = (HybridSearch.mget m0 t).getD 0
        + ((bm.filter (fun r => r.payload = t)).map
            (fun doc => (1 - alpha) * doc.norm_score.getD 0)).sum :=
  foldl_addToMap_mget (fun doc => doc.payload)
    (fun doc => (1 - alpha) * doc.norm_score.getD 0) bm m0 t ht

theorem vec_fold_mget (alpha : ℚ) (vecs : List HybridSearch.VecRes)
    (m0 : List (String × ℚ)) (t : String) (ht : t ≠ "") :
    (HybridSearch.mget (vecs.foldl (fun m it =>
        if HybridSearch.extract_text_from_vector_result it.payload ≠ "" then
          HybridSearch.addToMap m (HybridSearch.extract_text_from_vector_result it.payload)
            (alpha * it.norm_score.getD 0)
        else m) m0) t).getD 0
      = (HybridSearch.mget m0 t).getD 0
        + ((vecs.filter
              (fun r => HybridSearch.extract_text_from_vector_result r.payload = t)).map
            (fun it => alpha * it.norm_score.getD 0)).sum :=
  foldl_addToMap_mget (fun it => HybridSearch.extract_text_from_vector_result it.payload)
    (fun it => alpha * it.norm_score.getD 0) vecs m0 t ht

theorem kw_fold_mget_empty (alpha : ℚ) (bm : List HybridSearch.KwRes)
    (m0 : List (String × ℚ)) :
    HybridSearch.mget (bm.foldl (fun m doc =>
        if doc.payload ≠ "" then
          HybridSearch.addToMap m doc.payload ((1 - alpha) * doc.norm_score.getD 0)
        else m) m0) ""
      = HybridSearch.mget m0 "" :=
  foldl_addToMap_mget_empty (fun doc => doc.payload)
    (fun doc => (1 - alpha) * doc.norm_score.getD 0) bm m0

theorem vec_fold_mget_empty (alpha : ℚ) (vecs : List HybridSearch.VecRes)
    (m0 : List (String × ℚ)) :
    HybridSearch.mget (vecs.foldl (fun m it =>
        if HybridSearch.extract_text_from_vector_result it.payload ≠ "" then
          HybridSearch.addToMap m (HybridSearch.extract_text_from_vector_result it.payload)
            (alpha * it.norm_score.getD 0)
        else m) m0) ""
      = HybridSearch.mget m0 "" :=
  foldl_addToMap_mget_empty (fun it => HybridSearch.extract_text_from_vector_result it.payload)
    (fun it => alpha * it.norm_score.getD 0) vecs m0

theorem kw_fold_nodup (alpha : ℚ) (bm : List HybridSearch.KwRes)
    (m0 : List (String × ℚ)) (h : (m0.map Prod.fst).Nodup) :
    ((bm.foldl (fun m doc =>
        if doc.payload ≠ "" then
          HybridSearch.addToMap m doc.payload ((1 - alpha) * doc.norm_score.getD 0)
        else m) m0).map Prod.fst).Nodup :=
  foldl_addToMap_nodup (fun doc => doc.payload)
    (fun doc => (1 - alpha) * doc.norm_score.getD 0) bm m0 h

theorem vec_fold_nodup (alpha : ℚ) (vecs : List HybridSearch.VecRes)
    (m0 : List (String × ℚ)) (h : (m0.map Prod.fst).Nodup) :
    ((vecs.foldl (fun m it =>
        if HybridSearch.extract_text_from_vector_result it.payload ≠ "" then
          HybridSearch.addToMap m (HybridSearch.extract_text_from_vector_result it.payload)
            (alpha * it.norm_score.getD 0)
        else m) m0).map Prod.fst).Nodup :=
  foldl_addToMap_nodup (fun it => HybridSearch.extract_text_from_vector_result it.payload)
    (fun it => alpha * it.norm_score.getD 0) vecs m0 h

/-- C6 counterexample: the claim asserts the normalizer returns, for
*every* input list, outputs in `[0, 1]` following the min-max formula.
On `[{score: 0}, {score: 1}, {score: "x"}]` the code instead raises a
`TypeError` at `r["score"] - min_s` (the branch handler in
`hybrid_search` then swallows it), leaving the third result with no
`norm_score` at all. -/
theorem C6_counterexample :
    (HybridSearch._normalize_scores
      [(⟨.num 0, none, "x"⟩ : HybridSearch.NRes String), ⟨.num 1, none, "y"⟩,
        ⟨.other, none, "z"⟩]).2 = true
    ∧ (HybridSearch._normalize_scores
      [(⟨.num 0, none, "x"⟩ : HybridSearch.NRes String), ⟨.num 1, none, "y"⟩,
        ⟨.other, none, "z"⟩]).1.map (fun r => r.norm_score) = [some 0, some 1, none] := by
  refine ⟨by decide, by decide⟩

/-- C6 (amended): the Score Normalizer satisfies the claim's reference
definition on every list in which the distinct-scores branch is not
reached with a non-numeric score present: empty input gives empty
output without raising; no numeric score at all gives every result
`norm_score = 0.0`; all numeric scores equal gives every result
`norm_score = 1.0`; and when all scores are numeric with two distinct
values, the call does not raise, every `norm_score` is the min-max
formula `(score - min) / (max - min)`, lies in `[0, 1]`, and the
max-scoring elements map to `1.0` and the min-scoring ones to `0.0`.
(When a non-numeric score coexists with distinct numeric ones, the
function raises instead — see the counterexample.) -/
theorem C6_normalizer_cases {β : Type} (results : List (HybridSearch.NRes β)) :
    (HybridSearch._normalize_scores ([] : List (HybridSearch.NRes β)) = ([], false))
    ∧ (HybridSearch.numScores results = [] →
        (HybridSearch._normalize_scores results).2 = false
        ∧ ∀ r ∈ (HybridSearch._normalize_scores results).1, r.norm_score = some 0)
    ∧ (∀ q : ℚ, HybridSearch.numScores results ≠ [] →
        (∀ x ∈ HybridSearch.numScores results, x = q) →
        (HybridSearch._normalize_scores results).2 = false
        ∧ ∀ r ∈ (HybridSearch._normalize_scores results).1, r.norm_score = some 1)
    ∧ ((∀ r ∈ results, r.score ≠ HybridSearch.SVal.other) →
        (∃ x ∈ HybridSearch.numScores results, ∃ y ∈ HybridSearch.numScores results, x ≠ y) →
        (HybridSearch._normalize_scores results).2 = false
        ∧ ∃ mn mx, mn ∈ HybridSearch.numScores results ∧ mx ∈ HybridSearch.numScores results
            ∧ mn < mx
            ∧ (∀ x ∈ HybridSearch.numScores results, mn ≤ x ∧ x ≤ mx)
            ∧ (HybridSearch._normalize_scores results).1 =
                results.map (fun r => match r.score with
                  | .num q => HybridSearch.setNorm ((q - mn) / (mx - mn)) r
                  | .other => r)
            ∧ ∀ r ∈ (HybridSearch._normalize_scores results).1,
                (∃ v, r.norm_score = some v ∧ 0 ≤ v ∧ v ≤ 1)
                ∧ (r.score = HybridSearch.SVal.num mx → r.norm_score = some 1)
                ∧ (r.score = HybridSearch.SVal.num mn → r.norm_score = some 0)) := by
  refine ⟨rfl, ?_, ?_, ?_⟩
  · intro hns
    have hmain : HybridSearch._normalize_scores results =
        (results.map (HybridSearch.setNorm 0), false) := by
      by_cases hre : results = []
      · subst hre; rfl
      · have hre2 : results.isEmpty = false := by simp [hre]
        unfold HybridSearch._normalize_scores
        rw [hre2, hns]
        simp
    refine ⟨by rw [hmain], ?_⟩
    intro r hr
    rw [hmain] at hr
    rcases List.mem_map.mp hr with ⟨r0, _, hr0⟩
    rw [← hr0]; rfl
  · intro q hns hall
    rcases List.exists_cons_of_ne_nil hns with ⟨s, rest, hsc⟩
    have hre : results ≠ [] := by
      intro h; subst h; simp [HybridSearch.numScores] at hsc
    have hre2 : results.isEmpty = false := by simp [hre]
    have hsmem : s ∈ HybridSearch.numScores results := by
      rw [hsc]; exact List.mem_cons_self _ _
    have hmn : rest.foldl min s = s := by
      have hmem : rest.foldl min s ∈ HybridSearch.numScores results := by
        rw [hsc]; exact foldl_min_mem rest s
      rw [hall _ hmem, hall _ hsmem]
    have hmx : rest.foldl max s = s := by
      have hmem : rest.foldl max s ∈ HybridSearch.numScores results := by
        rw [hsc]; exact foldl_max_mem rest s
      rw [hall _ hmem, hall _ hsmem]
    have hmain : HybridSearch._normalize_scores results =
        (results.map (HybridSearch.setNorm 1), false) := by
      unfold HybridSearch._normalize_scores
      rw [hre2, hsc]
      simp [hmn, hmx]
    refine ⟨by rw [hmain], ?_⟩
    intro r hr
    rw [hmain] at hr
    rcases List.mem_map.mp hr with ⟨r0, _, hr0⟩
    rw [← hr0]; rfl
  · intro hnum hdist
    have hns : HybridSearch.numScores results ≠ [] := by
      rcases hdist with ⟨x, hx, _⟩
      exact List.ne_nil_of_mem hx
    rcases List.exists_cons_of_ne_nil hns with ⟨s, rest, hsc⟩
    have hre : results ≠ [] := by
      intro h; subst h; simp [HybridSearch.numScores] at hsc
    have hre2 : results.isEmpty = false := by simp [hre]
    have hmnmem : rest.foldl min s ∈ HybridSearch.numScores results := by
      rw [hsc]; exact foldl_min_mem rest s
    have hmxmem : rest.foldl max s ∈ HybridSearch.numScores results := by
      rw [hsc]; exact foldl_max_mem rest s
    have hbounds : ∀ x ∈ HybridSearch.numScores results,
        rest.foldl min s ≤ x ∧ x ≤ rest.foldl max s := by
      intro x hx
      rw [hsc] at hx
      exact ⟨foldl_min_le rest s x hx, le_foldl_max rest s x hx⟩
    have hlt : rest.foldl min s < rest.foldl max s := by
      rcases hdist with ⟨x, hx, y, hy, hxy⟩
      by_contra hnlt
      push_neg at hnlt
      apply hxy
      have h1 := hbounds x hx
      have h2 := hbounds y hy
      have hxx : x = rest.foldl min s := le_antisymm (le_trans h1.2 hnlt) h1.1
      have hyy : y = rest.foldl min s := le_antisymm (le_trans h2.2 hnlt) h2.1
      rw [hxx, hyy]
    have hne : rest.foldl max s ≠ rest.foldl min s := ne_of_gt hlt
    have hmain : HybridSearch._normalize_scores results =
        (results.map (fun r => match r.score with
          | .num q => HybridSearch.setNorm
              ((q - rest.foldl min s) / (rest.foldl max s - rest.foldl min s)) r
          | .other => r), false) := by
      unfold HybridSearch._normalize_scores
      rw [hre2, hsc]
      simp only [Bool.false_eq_true, if_false]
      show (if rest.foldl max s = rest.foldl min s then _ else HybridSearch.normElse _ _ results) = _
      rw [if_neg hne]
      exact normElse_all_num _ _ _ hnum
    refine ⟨by rw [hmain], rest.foldl min s, rest.foldl max s, hmnmem, hmxmem, hlt, hbounds,
      by rw [hmain], ?_⟩
    intro r hr
    rw [hmain] at hr
    rcases List.mem_map.mp hr with ⟨r0, hr0mem, hr0⟩
    have hq : ∃ q, r0.score = HybridSearch.SVal.num q := by
      match h : r0.score with
      | .num q => exact ⟨q, rfl⟩
      | .other => exact absurd h (hnum r0 hr0mem)
    rcases hq with ⟨q, hq⟩
    have hqmem : q ∈ HybridSearch.numScores results := mem_numScores hr0mem hq
    have hqb := hbounds q hqmem
    have hrval : r = HybridSearch.setNorm
        ((q - rest.foldl min s) / (rest.foldl max s - rest.foldl min s)) r0 := by
      rw [← hr0, hq]
    have hscore : r.score = r0.score := by rw [hrval]; rfl
    have hpos : (0 : ℚ) < rest.foldl max s - rest.foldl min s := sub_pos.mpr hlt
    refine ⟨⟨(q - rest.foldl min s) / (rest.foldl max s - rest.foldl min s), by rw [hrval]; rfl,
      div_nonneg (sub_nonneg.mpr hqb.1) (le_of_lt hpos),
      (div_le_one hpos).mpr (sub_le_sub_right hqb.2 _)⟩, ?_, ?_⟩
    · intro hrmx
      rw [hscore, hq] at hrmx
      have hqeq : q = rest.foldl max s := by injection hrmx
      rw [hrval]
      show some _ = some 1
      rw [hqeq, div_self (ne_of_gt hpos)]
    · intro hrmn
      rw [hscore, hq] at hrmn
      have hqeq : q = rest.foldl min s := by injection hrmn
      rw [hrval]
      show some _ = some 0
      rw [hqeq, sub_self, zero_div]

/-- C6 witness: the amended normalizer cases at concrete inputs — the
distinct-numeric branch on scores `[1, 3]` and the all-equal branch on
`[2, 2]`. -/
theorem C6_normalizer_cases_witness :
    ((HybridSearch._normalize_scores
        [(⟨.num 1, none, "a"⟩ : HybridSearch.NRes String), ⟨.num 3, none, "b"⟩]).2 = false
      ∧ ∃ mn mx, mn ∈ HybridSearch.numScores
            [(⟨.num 1, none, "a"⟩ : HybridSearch.NRes String), ⟨.num 3, none, "b"⟩]
          ∧ mx ∈ HybridSearch.numScores
            [(⟨.num 1, none, "a"⟩ : HybridSearch.NRes String), ⟨.num 3, none, "b"⟩]
          ∧ mn < mx
          ∧ (∀ x ∈ HybridSearch.numScores
              [(⟨.num 1, none, "a"⟩ : HybridSearch.NRes String), ⟨.num 3, none, "b"⟩],
              mn ≤ x ∧ x ≤ mx)
          ∧ (HybridSearch._normalize_scores
              [(⟨.num 1, none, "a"⟩ : HybridSearch.NRes String), ⟨.num 3, none, "b"⟩]).1 =
              ([(⟨.num 1, none, "a"⟩ : HybridSearch.NRes String), ⟨.num 3, none, "b"⟩]).map
                (fun r => match r.score with
                  | .num q => HybridSearch.setNorm ((q - mn) / (mx - mn)) r
                  | .other => r)
          ∧ ∀ r ∈ (HybridSearch._normalize_scores
              [(⟨.num 1, none, "a"⟩ : HybridSearch.NRes String), ⟨.num 3, none, "b"⟩]).1,
              (∃ v, r.norm_score = some v ∧ 0 ≤ v ∧ v ≤ 1)
              ∧ (r.score = HybridSearch.SVal.num mx → r.norm_score = some 1)
              ∧ (r.score = HybridSearch.SVal.num mn → r.norm_score = some 0))
    ∧ (∀ r ∈ (HybridSearch._normalize_scores
        [(⟨.num 2, none, "c"⟩ : HybridSearch.NRes String), ⟨.num 2, none, "d"⟩]).1,
        r.norm_score = some 1) :=
  ⟨(C6_normalizer_cases
      [(⟨.num 1, none, "a"⟩ : HybridSearch.NRes String), ⟨.num 3, none, "b"⟩]).2.2.2
      (by decide) ⟨1, by decide, 3, by decide, by decide⟩,
   ((C6_normalizer_cases
      [(⟨.num 2, none, "c"⟩ : HybridSearch.NRes String), ⟨.num 2, none, "d"⟩]).2.2.1 2
      (by decide) (by decide)).2⟩

/-- C3: `hybrid_search` adjusts the caller-supplied alpha before
retrieval: on a factoid-classified query the effective alpha is clamped
into `[0.2, 0.4]` (in particular a requested `0.9` becomes at most
`0.4`), otherwise it is floored to at least `0.6` (it equals
`max alpha 0.6`). -/
theorem C3_alpha_adjustment (query : String) (alpha : ℚ) :
    (HybridSearch._is_factoid_query query = true →
      (0.2 : ℚ) ≤ HybridSearch.effective_alpha query alpha
      ∧ HybridSearch.effective_alpha query alpha ≤ (0.4 : ℚ)
      ∧ HybridSearch.effective_alpha query (0.9 : ℚ) ≤ (0.4 : ℚ))
    ∧ (HybridSearch._is_factoid_query query = false →
      HybridSearch.effective_alpha query alpha = max alpha (0.6 : ℚ)
      ∧ (0.6 : ℚ) ≤ HybridSearch.effective_alpha query alpha) := by
  unfold HybridSearch.effective_alpha
  constructor
  · intro h
    rw [h]
    refine ⟨le_max_left _ _, max_le (by norm_num) (min_le_right _ _), ?_⟩
    simp only [if_pos rfl]
    exact max_le (by norm_num) (min_le_right _ _)
  · intro h
    rw [h]
    exact ⟨rfl, le_max_right _ _⟩

/-- C3 witness: a factoid query with requested alpha `0.9` lands in the
keyword band, and a keyword-free query is floored to `0.6`. -/
theorem C3_alpha_adjustment_witness :
    HybridSearch.effective_alpha "What is the capital of France?" (0.9 : ℚ) ≤ (0.4 : ℚ)
    ∧ (0.6 : ℚ) ≤ HybridSearch.effective_alpha "zzz" (0.1 : ℚ) :=
  ⟨((C3_alpha_adjustment "What is the capital of France?" (0.9 : ℚ)).1 (by decide)).2.2,
   ((C3_alpha_adjustment "zzz" (0.1 : ℚ)).2 (by decide)).2⟩

/-- C4: the claim (and §8 of the spec, and the method's own
"Automatically skips duplicates" docstring) expects
`add_documents(["a", "a", "b"])` then `add_documents(["a", "c"])` to
leave the corpus `["a", "b", "c"]`; the code only filters duplicates of
*already indexed* documents, so the within-batch duplicate `"a"` is kept
and the corpus is `["a", "a", "b", "c"]`. -/
theorem C4_within_batch_duplicate_kept :
    (BM25.add_documents (BM25.add_documents BM25.emptyState ["a", "a", "b"]) ["a", "c"]).documents
      = ["a", "a", "b", "c"] := by decide

theorem add_documents_cases (st : BM25.State) (docs : List String) :
    BM25.add_documents st docs = st
    ∨ (docs ≠ []
        ∧ docs.filter (fun d => pyStrip d ≠ "" && !st.documents.contains d) ≠ []
        ∧ BM25.add_documents st docs =
          ⟨st.documents ++ docs.filter (fun d => pyStrip d ≠ "" && !st.documents.contains d),
           st.tokenized_docs ++
             (docs.filter (fun d => pyStrip d ≠ "" && !st.documents.contains d)).map BM25._tokenize,
           some (st.tokenized_docs ++
             (docs.filter (fun d => pyStrip d ≠ "" && !st.documents.contains d)).map
               BM25._tokenize)⟩) := by
  by_cases h1 : docs = []
  · left; rw [BM25.add_documents, if_pos h1]
  · have he : BM25.add_documents st docs =
        (if docs.filter (fun d => pyStrip d ≠ "" && !st.documents.contains d) = [] then st
         else
          ⟨st.documents ++ docs.filter (fun d => pyStrip d ≠ "" && !st.documents.contains d),
           st.tokenized_docs ++
             (docs.filter (fun d => pyStrip d ≠ "" && !st.documents.contains d)).map
               BM25._tokenize,
           some (st.tokenized_docs ++
             (docs.filter (fun d => pyStrip d ≠ "" && !st.documents.contains d)).map
               BM25._tokenize)⟩) := by
      rw [BM25.add_documents, if_neg h1]
    by_cases h2 : docs.filter (fun d => pyStrip d ≠ "" && !st.documents.contains d) = []
    · left; rw [he, if_pos h2]
    · right; exact ⟨h1, h2, by rw [he, if_neg h2]⟩

/-- C8: the keyword-index invariant — `tokenized_docs` is position-for-
position the tokenization of `documents` (hence equal lengths) — holds
for the fresh empty index and for an index loaded from a missing/corrupt
file, and is preserved by `add_documents` (which moreover only appends,
in lockstep, to both sequences), by `reset` (which clears both
together), and by reloading a state saved by `_save`.  (`retrieve` does
not assign any state, so it preserves everything trivially; it has no
state output to quantify over.) -/
theorem C8_index_invariant :
    BM25.WF BM25.emptyState
    ∧ (∀ st docs, BM25.WF st →
        BM25.WF (BM25.add_documents st docs)
        ∧ ∃ app, (BM25.add_documents st docs).documents = st.documents ++ app
            ∧ (BM25.add_documents st docs).tokenized_docs =
                st.tokenized_docs ++ app.map BM25._tokenize)
    ∧ (∀ st, BM25.WF (BM25.reset st)
        ∧ (BM25.reset st).documents = [] ∧ (BM25.reset st).tokenized_docs = [])
    ∧ (∀ st, BM25.WF st → BM25.WF (BM25.load_state (some (BM25._save st))))
    ∧ BM25.WF (BM25.load_state none) := by
  refine ⟨rfl, ?_, ?_, ?_, rfl⟩
  · intro st docs hwf
    rcases add_documents_cases st docs with h | ⟨_, _, h⟩
    · rw [h]
      exact ⟨hwf, [], by simp, by simp⟩
    · rw [h]
      refine ⟨?_, docs.filter (fun d => pyStrip d ≠ "" && !st.documents.contains d), rfl, rfl⟩
      show _ = List.map _ _
      rw [List.map_append, ← hwf]
  · intro st
    exact ⟨rfl, rfl, rfl⟩
  · intro st hwf
    show (BM25.load_state (some (st.documents, st.tokenized_docs))).tokenized_docs = _
    simp only [BM25.load_state]
    exact hwf

/-- C8 witness: the invariant clauses applied to the empty index, a
concrete `add_documents` call on it, and a save/load round trip of the
resulting state. -/
theorem C8_index_invariant_witness :
    BM25.WF (BM25.add_documents BM25.emptyState ["the cat sat", "the dog ran"])
    ∧ BM25.WF (BM25.load_state (some (BM25._save
        (BM25.add_documents BM25.emptyState ["the cat sat", "the dog ran"])))) :=
  ⟨(C8_index_invariant.2.1 BM25.emptyState ["the cat sat", "the dog ran"] rfl).1,
   C8_index_invariant.2.2.2.1 (BM25.add_documents BM25.emptyState ["the cat sat", "the dog ran"])
     (C8_index_invariant.2.1 BM25.emptyState ["the cat sat", "the dog ran"] rfl).1⟩

/-- C9: after `reset()` every `retrieve` returns `[]` (for every query,
`top_k` and scoring function), a subsequent `add_documents([])` leaves
the state unchanged, and `retrieve` afterwards still returns `[]`. -/
theorem C9_reset_roundtrip (getScores : List (List String) → List String → List ℚ)
    (st : BM25.State) (query : String) (top_k : ℕ) :
    BM25.retrieve getScores (BM25.reset st) query top_k = []
    ∧ BM25.add_documents (BM25.reset st) [] = BM25.reset st
    ∧ BM25.retrieve getScores (BM25.add_documents (BM25.reset st) []) query top_k = [] :=
  ⟨rfl, rfl, rfl⟩

/-- C2: in the merge step, for every non-empty text `t` the accumulated
score of key `t` is `(1 - alpha)` times the summed `norm_score` of
keyword results with exactly that text plus `alpha` times the summed
`norm_score` of vector results whose extracted text equals it (a key
never contributed to carries no entry, and both sides are then `0`);
the empty text is never a key, so empty-text results are dropped and
never merged; and keys are unique, so identical texts from both
branches collapse into a single entry carrying the weighted sum. -/
theorem C2_merge_formula (alpha : ℚ) (bm25_results : List HybridSearch.KwRes)
    (vector_results : List HybridSearch.VecRes) (t : String) (ht : t ≠ "") :
    (HybridSearch.mget (HybridSearch.combineScores alpha bm25_results vector_results) t).getD 0
      = (1 - alpha) *
          ((bm25_results.filter (fun r => r.payload = t)).map
            (fun r => r.norm_score.getD 0)).sum
        + alpha *
          ((vector_results.filter
              (fun r => HybridSearch.extract_text_from_vector_result r.payload = t)).map
            (fun r => r.norm_score.getD 0)).sum
    ∧ HybridSearch.mget (HybridSearch.combineScores alpha bm25_results vector_results) "" = none
    ∧ ((HybridSearch.combineScores alpha bm25_results vector_results).map Prod.fst).Nodup := by
  refine ⟨?_, ?_, ?_⟩
  · show (HybridSearch.mget (vector_results.foldl (fun m it =>
        if HybridSearch.extract_text_from_vector_result it.payload ≠ "" then
          HybridSearch.addToMap m (HybridSearch.extract_text_from_vector_result it.payload)
            (alpha * it.norm_score.getD 0)
        else m)
        (bm25_results.foldl (fun m doc =>
          if doc.payload ≠ "" then
            HybridSearch.addToMap m doc.payload ((1 - alpha) * doc.norm_score.getD 0)
          else m) [])) t).getD 0 = _
    rw [vec_fold_mget alpha vector_results _ t ht, kw_fold_mget alpha bm25_results [] t ht,
      sum_map_mul ((1 : ℚ) - alpha), sum_map_mul alpha]
    show (HybridSearch.mget [] t).getD 0 + _ + _ = _
    simp [HybridSearch.mget]
  · show HybridSearch.mget (vector_results.foldl (fun m it =>
        if HybridSearch.extract_text_from_vector_result it.payload ≠ "" then
          HybridSearch.addToMap m (HybridSearch.extract_text_from_vector_result it.payload)
            (alpha * it.norm_score.getD 0)
        else m)
        (bm25_results.foldl (fun m doc =>
          if doc.payload ≠ "" then
            HybridSearch.addToMap m doc.payload ((1 - alpha) * doc.norm_score.getD 0)
          else m) [])) "" = none
    rw [vec_fold_mget_empty alpha vector_results _, kw_fold_mget_empty alpha bm25_results []]
    rfl
  · show ((vector_results.foldl (fun m it =>
        if HybridSearch.extract_text_from_vector_result it.payload ≠ "" then
          HybridSearch.addToMap m (HybridSearch.extract_text_from_vector_result it.payload)
            (alpha * it.norm_score.getD 0)
        else m)
        (bm25_results.foldl (fun m doc =>
          if doc.payload ≠ "" then
            HybridSearch.addToMap m doc.payload ((1 - alpha) * doc.norm_score.getD 0)
          else m) [])).map Prod.fst).Nodup
    exact vec_fold_nodup alpha vector_results _
      (kw_fold_nodup alpha bm25_results [] List.nodup_nil)

/-- C2 witness: the merge formula evaluated where the text `"shared"`
appears in both branches (its contributions sum), `"kw only"` only in
the keyword branch, and an empty-text vector result is dropped. -/
theorem C2_merge_formula_witness :
    (HybridSearch.mget (HybridSearch.combineScores (1/4)
        [⟨.num 2, some 1, "shared"⟩, ⟨.num 1, some 0, "kw only"⟩]
        [(⟨.num 5, some 1, ⟨some "shared", none, none⟩⟩ : HybridSearch.VecRes),
         ⟨.num 4, some (1/2), ⟨none, none, none⟩⟩]) "shared").getD 0
      = (1 - 1/4) * 1 + (1/4) * 1
    ∧ HybridSearch.mget (HybridSearch.combineScores (1/4)
        [⟨.num 2, some 1, "shared"⟩, ⟨.num 1, some 0, "kw only"⟩]
        [(⟨.num 5, some 1, ⟨some "shared", none, none⟩⟩ : HybridSearch.VecRes),
         ⟨.num 4, some (1/2), ⟨none, none, none⟩⟩]) "" = none :=
  ⟨((C2_merge_formula (1/4)
      [⟨.num 2, some 1, "shared"⟩, ⟨.num 1, some 0, "kw only"⟩]
      [(⟨.num 5, some 1, ⟨some "shared", none, none⟩⟩ : HybridSearch.VecRes),
       ⟨.num 4, some (1/2), ⟨none, none, none⟩⟩] "shared" (by decide)).1.trans (by decide)),
   (C2_merge_formula (1/4)
      [⟨.num 2, some 1, "shared"⟩, ⟨.num 1, some 0, "kw only"⟩]
      [(⟨.num 5, some 1, ⟨some "shared", none, none⟩⟩ : HybridSearch.VecRes),
       ⟨.num 4, some (1/2), ⟨none, none, none⟩⟩] "shared" (by decide)).2.1⟩

theorem semantic_rerank_parse_failure (gemText query : String)
    (docs : List HybridSearch.RDoc)
    (hparse : Rerank.jsonParse ((Rerank.spanExtract (pyStrip gemText)).getD "[]") = none) :
    Rerank._semantic_rerank (.ok gemText) query docs = Rerank._lexical_rerank query docs := by
  by_cases hd : docs.isEmpty
  · have hnil : docs = [] := List.isEmpty_iff.mp hd
    subst hnil
    rfl
  · unfold Rerank._semantic_rerank
    rw [if_neg hd]
    simp only [hparse]

theorem semantic_rerank_raise (query : String) (docs : List HybridSearch.RDoc) :
    Rerank._semantic_rerank (.error ()) query docs = Rerank._lexical_rerank query docs := by
  by_cases hd : docs.isEmpty
  · have hnil : docs = [] := List.isEmpty_iff.mp hd
    subst hnil
    rfl
  · unfold Rerank._semantic_rerank
    rw [if_neg hd]

/-- C5 counterexample: the claim promises the lexical-fallback ordering
for every non-JSON garbage response, but a garbage response with no
bracketed span at all (here, one that is itself unparseable as JSON)
makes `re.search` miss, `json_str` default to `"[]"`, which parses to
the empty list: no fallback runs, every candidate gets `rerank_score`
`0.0`, normalization lifts them all to `1.0`, and the stable sort
returns the raw input order — not the lexical ranking. -/
theorem C5_counterexample :
    Rerank.jsonParse "I cannot rank these documents." = none
    ∧ Rerank.spanExtract (pyStrip "I cannot rank these documents.") = none
    ∧ (Rerank.rerank_results true (.ok "I cannot rank these documents.") "apple"
        [⟨"banana", 2/5, none⟩, ⟨"apple pie", 0, none⟩] 2).map (fun r => r.text)
        = ["banana", "apple pie"]
    ∧ (Rerank.rerank_results false (.error ()) "apple"
        [⟨"banana", 2/5, none⟩, ⟨"apple pie", 0, none⟩] 2).map (fun r => r.text)
        = ["apple pie", "banana"]
    ∧ (Rerank.rerank_results true (.ok "I cannot rank these documents.") "apple"
          [⟨"banana", 2/5, none⟩, ⟨"apple pie", 0, none⟩] 2).map (fun r => r.text)
        ≠ (Rerank.rerank_results false (.error ()) "apple"
          [⟨"banana", 2/5, none⟩, ⟨"apple pie", 0, none⟩] 2).map (fun r => r.text) :=
  ⟨rfl, rfl, by decide, by decide, by decide⟩

/-- C5 (amended): when the rerank-model response is garbage from which
the extracted bracketed span fails JSON parsing (a real
`JSONDecodeError`), `rerank_results` falls back to the lexical
token-overlap strategy for the entire batch, returning exactly the
lexical-fallback pipeline's ranking.  (A garbage response containing no
bracketed span at all instead parses as the empty list and yields the
raw input order with every `rerank_score` normalized to `1.0` — see the
counterexample.) -/
theorem C5_parse_failure_lexical (gemText query : String) (docs : List HybridSearch.RDoc)
    (top_n : ℕ)
    (hparse : Rerank.jsonParse ((Rerank.spanExtract (pyStrip gemText)).getD "[]") = none) :
    Rerank.rerank_results true (.ok gemText) query docs top_n
      = Rerank.rerank_results false (.error ()) query docs top_n := by
  unfold Rerank.rerank_results
  rw [semantic_rerank_parse_failure gemText query docs hparse]
  rfl

/-- C5 witness: a response whose bracketed span `[1, 2,]` is malformed
JSON (trailing comma) triggers the lexical fallback — the semantic call
and the plain lexical pipeline agree on a concrete candidate list. -/
theorem C5_parse_failure_lexical_witness :
    Rerank.jsonParse ((Rerank.spanExtract (pyStrip "noise [1, 2,] noise")).getD "[]") = none
    ∧ Rerank.rerank_results true (.ok "noise [1, 2,] noise") "apple"
        [⟨"banana", 2/5, none⟩, ⟨"apple pie", 0, none⟩] 2
      = Rerank.rerank_results false (.error ()) "apple"
        [⟨"banana", 2/5, none⟩, ⟨"apple pie", 0, none⟩] 2 :=
  ⟨rfl, C5_parse_failure_lexical "noise [1, 2,] noise" "apple"
    [⟨"banana", 2/5, none⟩, ⟨"apple pie", 0, none⟩] 2 rfl⟩

/-- C7 counterexample: the claim promises the original input list
truncated to `top_n` whenever any exception occurs in reranking, but
when the semantic collaborator raises (network failure) the code
catches the exception inside `_semantic_rerank` and falls back to the
*lexical* strategy, whose re-sorted output differs from the input
order. -/
theorem C7_counterexample :
    (Rerank.rerank_results true (.error ()) "apple"
        [⟨"banana", 2/5, none⟩, ⟨"apple pie", 0, none⟩] 2).map (fun r => r.text)
      = ["apple pie", "banana"]
    ∧ (([(⟨"banana", 2/5, none⟩ : HybridSearch.RDoc), ⟨"apple pie", 0, none⟩].take 2).map
        (fun r => r.text)) = ["banana", "apple pie"]
    ∧ (Rerank.rerank_results true (.error ()) "apple"
          [⟨"banana", 2/5, none⟩, ⟨"apple pie", 0, none⟩] 2).map (fun r => r.text)
        ≠ (([(⟨"banana", 2/5, none⟩ : HybridSearch.RDoc), ⟨"apple pie", 0, none⟩].take 2).map
          (fun r => r.text)) :=
  ⟨by decide, by decide, by decide⟩

/-- C7 (amended): an exception raised inside the semantic rerank stage
(network failure of the model call, parse failure, scoring failure) is
caught there and produces the lexical-fallback ranking — the whole
pipeline behaves exactly as if the lexical strategy had been chosen —
not the original input truncated to `top_n`.  The catch-all that
returns `retrieved_chunks[:top_n]` unmodified guards only failures
outside both strategies, which cannot occur for result dictionaries of
this shape (the lexical scorer and normalization are total). -/
theorem C7_semantic_failure_lexical (query : String) (docs : List HybridSearch.RDoc)
    (top_n : ℕ) :
    Rerank.rerank_results true (.error ()) query docs top_n
      = Rerank.rerank_results false (.error ()) query docs top_n := by
  unfold Rerank.rerank_results
  rw [semantic_rerank_raise query docs]
  rfl

theorem any_key_iff (m : List (String × ℚ)) (k : String) :
    m.any (fun p => p.1 = k) = true ↔ k ∈ m.map Prod.fst := by
  rw [List.any_eq_true]
  constructor
  · rintro ⟨p, hp, hk⟩
    exact List.mem_map.mpr ⟨p, hp, of_decide_eq_true hk⟩
  · intro h
    rcases List.mem_map.mp h with ⟨p, hp, hk⟩
    exact ⟨p, hp, decide_eq_true hk⟩

theorem addToMap_keys_of_mem (m : List (String × ℚ)) (k : String) (w : ℚ)
    (h : k ∈ m.map Prod.fst) :
    (HybridSearch.addToMap m k w).map Prod.fst = m.map Prod.fst := by
  unfold HybridSearch.addToMap
  rw [if_pos ((any_key_iff m k).mpr h), List.map_map]
  congr 1
  funext p
  by_cases hp : p.1 = k <;> simp [hp]

theorem addToMap_of_not_mem (m : List (String × ℚ)) (k : String) (w : ℚ)
    (h : k ∉ m.map Prod.fst) :
    HybridSearch.addToMap m k w = m ++ [(k, w)] := by
  unfold HybridSearch.addToMap
  rw [if_neg (fun hc => h ((any_key_iff m k).mp hc))]

theorem foldl_addToMap_keys {γ : Type} (keyf : γ → String) (wf : γ → ℚ)
    (items : List γ) (m0 : List (String × ℚ)) :
    ((items.foldl (fun m it =>
        if keyf it ≠ "" then HybridSearch.addToMap m (keyf it) (wf it) else m) m0).map
      Prod.fst)
      = m0.map Prod.fst ++ dedupKeepFirst
          (((items.map keyf).filter (fun t => t ≠ "")).filter
            (fun t => t ∉ m0.map Prod.fst)) := by
  induction items generalizing m0 with
  | nil => simp [dedupKeepFirst]
  | cons it rest ih =>
    rw [List.foldl_cons, List.map_cons]
    by_cases hk : keyf it ≠ ""
    · rw [if_pos hk]
      by_cases hmem : keyf it ∈ m0.map Prod.fst
      · have hfil : (keyf it :: (rest.map keyf)).filter (fun t => t ≠ "") =
            keyf it :: (rest.map keyf).filter (fun t => t ≠ "") := by
          rw [List.filter_cons, if_pos (by simpa using hk)]
        rw [hfil, List.filter_cons, if_neg (by simpa using hmem), ih,
          addToMap_keys_of_mem m0 (keyf it) (wf it) hmem]
      · have hkeys : (HybridSearch.addToMap m0 (keyf it) (wf it)).map Prod.fst =
            m0.map Prod.fst ++ [keyf it] := by
          rw [addToMap_of_not_mem m0 (keyf it) (wf it) hmem]
          simp
        have hfil : (keyf it :: (rest.map keyf)).filter (fun t => t ≠ "") =
            keyf it :: (rest.map keyf).filter (fun t => t ≠ "") := by
          rw [List.filter_cons, if_pos (by simpa using hk)]
        have hfil2 : (keyf it :: (rest.map keyf).filter (fun t => t ≠ "")).filter
            (fun t => t ∉ m0.map Prod.fst) =
            keyf it :: ((rest.map keyf).filter (fun t => t ≠ "")).filter
              (fun t => t ∉ m0.map Prod.fst) := by
          rw [List.filter_cons, if_pos (by simpa using hmem)]
        rw [hfil, hfil2, ih, hkeys]
        have hsplit : ((rest.map keyf).filter (fun t => t ≠ "")).filter
            (fun t => t ∉ m0.map Prod.fst ++ [keyf it]) =
            (((rest.map keyf).filter (fun t => t ≠ "")).filter
              (fun t => t ∉ m0.map Prod.fst)).filter (fun t => t ≠ keyf it) := by
          simp only [List.filter_filter]
          apply List.filter_congr
          intro t _
          by_cases h1 : t ∈ m0.map Prod.fst <;> by_cases h2 : t = keyf it <;>
            by_cases h3 : t = "" <;> simp [h1, h2, h3]
        rw [hsplit]
        rw [List.append_assoc]
        congr 1
        show [keyf it] ++ _ = _
        rw [List.singleton_append, dedupKeepFirst]
    · rw [if_neg hk]
      push_neg at hk
      have hfil : (keyf it :: (rest.map keyf)).filter (fun t => t ≠ "") =
          (rest.map keyf).filter (fun t => t ≠ "") := by
        rw [List.filter_cons, if_neg (by simp [hk])]
      rw [hfil, ih]

theorem not_pair_self_sublist {α : Type} {a : α} :
    ∀ {l : List α}, l.Nodup → ¬ List.Sublist [a, a] l := by
  intro l
  induction l with
  | nil => intro _ h; cases h
  | cons x xs ih =>
    intro hnd h
    rcases List.nodup_cons.mp hnd with ⟨hx, hnd2⟩
    cases h with
    | cons _ h2 => exact ih hnd2 h2
    | cons₂ _ h2 => exact hx (List.singleton_sublist.mp h2)

theorem pair_sublist_antisymm {α : Type} {a b : α} :
    ∀ {l : List α}, l.Nodup → List.Sublist [a, b] l → List.Sublist [b, a] l → a = b := by
  intro l
  induction l with
  | nil => intro _ h; cases h
  | cons x xs ih =>
    intro hnd h1 h2
    rcases List.nodup_cons.mp hnd with ⟨hx, hnd2⟩
    cases h1 with
    | cons _ h1tail =>
      cases h2 with
      | cons _ h2tail => exact ih hnd2 h1tail h2tail
      | cons₂ _ h2tail =>
        exact absurd ((List.Sublist.subset h1tail) (show b ∈ [a, b] by simp)) hx
    | cons₂ _ h1tail =>
      cases h2 with
      | cons _ h2tail =>
        exact absurd ((List.Sublist.subset h2tail) (show a ∈ [b, a] by simp)) hx
      | cons₂ _ h2tail => rfl

theorem pair_sublist_total {α : Type} {a b : α} :
    ∀ {l : List α}, a ∈ l → b ∈ l → a ≠ b →
      List.Sublist [a, b] l ∨ List.Sublist [b, a] l := by
  intro l
  induction l with
  | nil => intro ha; exact absurd ha (List.not_mem_nil a)
  | cons x xs ih =>
    intro ha hb hne
    rcases List.mem_cons.mp ha with hax | hax
    · subst hax
      have hbx : b ∈ xs := by
        rcases List.mem_cons.mp hb with h | h
        · exact absurd h.symm hne
        · exact h
      exact Or.inl (List.Sublist.cons₂ a (List.singleton_sublist.mpr hbx))
    · rcases List.mem_cons.mp hb with hbx | hbx
      · subst hbx
        exact Or.inr (List.Sublist.cons₂ b (List.singleton_sublist.mpr hax))
      · rcases ih hax hbx hne with h | h
        · exact Or.inl (List.Sublist.cons x h)
        · exact Or.inr (List.Sublist.cons x h)

theorem kw_fold_keys (alpha : ℚ) (bm : List HybridSearch.KwRes) (m0 : List (String × ℚ)) :
    ((bm.foldl (fun m doc =>
        if doc.payload ≠ "" then
          HybridSearch.addToMap m doc.payload ((1 - alpha) * doc.norm_score.getD 0)
        else m) m0).map Prod.fst)
      = m0.map Prod.fst ++ dedupKeepFirst
          (((bm.map (fun r => r.payload)).filter (fun t => t ≠ "")).filter
            (fun t => t ∉ m0.map Prod.fst)) :=
  foldl_addToMap_keys (fun doc => doc.payload)
    (fun doc => (1 - alpha) * doc.norm_score.getD 0) bm m0

theorem vec_fold_keys (alpha : ℚ) (vecs : List HybridSearch.VecRes)
    (m0 : List (String × ℚ)) :
    ((vecs.foldl (fun m it =>
        if HybridSearch.extract_text_from_vector_result it.payload ≠ "" then
          HybridSearch.addToMap m (HybridSearch.extract_text_from_vector_result it.payload)
            (alpha * it.norm_score.getD 0)
        else m) m0).map Prod.fst)
      = m0.map Prod.fst ++ dedupKeepFirst
          (((vecs.map (fun r => HybridSearch.extract_text_from_vector_result r.payload)).filter
            (fun t => t ≠ "")).filter (fun t => t ∉ m0.map Prod.fst)) :=
  foldl_addToMap_keys (fun it => HybridSearch.extract_text_from_vector_result it.payload)
    (fun it => alpha * it.norm_score.getD 0) vecs m0

theorem combineScores_keys (alpha : ℚ) (bm : List HybridSearch.KwRes)
    (vecs : List HybridSearch.VecRes) :
    (HybridSearch.combineScores alpha bm vecs).map Prod.fst
      = HybridSearch.firstContributionOrder bm vecs := by
  show ((vecs.foldl (fun m it =>
      if HybridSearch.extract_text_from_vector_result it.payload ≠ "" then
        HybridSearch.addToMap m (HybridSearch.extract_text_from_vector_result it.payload)
          (alpha * it.norm_score.getD 0)
      else m)
      (bm.foldl (fun m doc =>
        if doc.payload ≠ "" then
          HybridSearch.addToMap m doc.payload ((1 - alpha) * doc.norm_score.getD 0)
        else m) [])).map Prod.fst) = _
  rw [vec_fold_keys alpha vecs _, kw_fold_keys alpha bm []]
  have hnilfil : ∀ l : List String,
      l.filter (fun t => t ∉ (([] : List (String × ℚ)).map Prod.fst)) = l := by
    intro l
    rw [List.filter_eq_self]
    intro a _
    simp
  rw [hnilfil, List.map_nil, List.nil_append]
  rfl

theorem combineScores_keys_nodup (alpha : ℚ) (bm : List HybridSearch.KwRes)
    (vecs : List HybridSearch.VecRes) :
    ((HybridSearch.combineScores alpha bm vecs).map Prod.fst).Nodup := by
  show ((vecs.foldl (fun m it =>
      if HybridSearch.extract_text_from_vector_result it.payload ≠ "" then
        HybridSearch.addToMap m (HybridSearch.extract_text_from_vector_result it.payload)
          (alpha * it.norm_score.getD 0)
      else m)
      (bm.foldl (fun m doc =>
        if doc.payload ≠ "" then
          HybridSearch.addToMap m doc.payload ((1 - alpha) * doc.norm_score.getD 0)
        else m) [])).map Prod.fst).Nodup
  exact vec_fold_nodup alpha vecs _ (kw_fold_nodup alpha bm [] List.nodup_nil)

theorem mergedTop_eq_of_ne (alpha : ℚ) (bm : List HybridSearch.KwRes)
    (vecs : List HybridSearch.VecRes) (top_k : ℕ)
    (hc : HybridSearch.combineScores alpha bm vecs ≠ []) :
    HybridSearch.mergedTop alpha bm vecs top_k =
      some ((List.insertionSort HybridSearch.rdocDesc
        (((HybridSearch.combineScores alpha bm vecs).filter
          (fun p => pyStrip p.1 ≠ "")).map
            (fun p => HybridSearch.RDoc.mk p.1 p.2 none))).take top_k) := by
  show (if HybridSearch.combineScores alpha bm vecs = [] then none else some _) = _
  rw [if_neg hc]

/-- C10: the pre-rerank sorted, truncated merged list of `hybrid_search`
is a deterministic function of the two branch result lists (it is
defined as one), the merged-map keys appear in first-contribution order
(keyword-branch texts in keyword-rank order, then vector-only texts in
vector-rank order), the output is sorted by descending combined score,
and ties are broken by first insertion into the map: a pair of
equal-score entries appears in the output in the same order in which
their texts entered the merged map (`combined_list` keeps the map's
insertion order, and Python's `list.sort` is stable). -/
theorem C10_tie_break (alpha : ℚ) (bm : List HybridSearch.KwRes)
    (vecs : List HybridSearch.VecRes) (top_k : ℕ) (out : List HybridSearch.RDoc)
    (hout : HybridSearch.mergedTop alpha bm vecs top_k = some out) :
    (HybridSearch.combineScores alpha bm vecs).map Prod.fst
      = HybridSearch.firstContributionOrder bm vecs
    ∧ out.Pairwise (fun a b => b.score ≤ a.score)
    ∧ ∀ a b, List.Sublist [a, b] out → a.score = b.score →
        List.Sublist [a, b]
          (((HybridSearch.combineScores alpha bm vecs).filter
            (fun p => pyStrip p.1 ≠ "")).map
              (fun p => HybridSearch.RDoc.mk p.1 p.2 none)) := by
  by_cases hc : HybridSearch.combineScores alpha bm vecs = []
  · exfalso
    have : HybridSearch.mergedTop alpha bm vecs top_k = none := by
      show (if HybridSearch.combineScores alpha bm vecs = [] then none else some _) = _
      rw [if_pos hc]
    rw [this] at hout
    exact Option.noConfusion hout
  · have hout2 := hout
    rw [mergedTop_eq_of_ne alpha bm vecs top_k hc, Option.some.injEq] at hout2
    subst hout2
    have hclnd : (((HybridSearch.combineScores alpha bm vecs).filter
        (fun p => pyStrip p.1 ≠ "")).map
          (fun p => HybridSearch.RDoc.mk p.1 p.2 none)).Nodup := by
      have h1 : (HybridSearch.combineScores alpha bm vecs).Nodup :=
        List.Nodup.of_map Prod.fst (combineScores_keys_nodup alpha bm vecs)
      have h2 := List.Nodup.filter (fun p => pyStrip p.1 ≠ "") h1
      have hinjkeys : ((HybridSearch.combineScores alpha bm vecs).filter
          (fun p => pyStrip p.1 ≠ "")).map Prod.fst
          |>.Nodup := List.Nodup.sublist
            (List.Sublist.map Prod.fst (List.filter_sublist _))
            (combineScores_keys_nodup alpha bm vecs)
      refine List.Nodup.map ?_ h2
      intro p q hpq
      have h1 : p.1 = q.1 := congrArg HybridSearch.RDoc.text hpq
      have h2 : p.2 = q.2 := congrArg HybridSearch.RDoc.score hpq
      exact Prod.ext h1 h2
    refine ⟨combineScores_keys alpha bm vecs, ?_, ?_⟩
    · have hsorted : List.Sorted HybridSearch.rdocDesc
          (List.insertionSort HybridSearch.rdocDesc
            (((HybridSearch.combineScores alpha bm vecs).filter
              (fun p => pyStrip p.1 ≠ "")).map
                (fun p => HybridSearch.RDoc.mk p.1 p.2 none))) :=
        List.sorted_insertionSort HybridSearch.rdocDesc _
      exact List.Pairwise.sublist (List.take_sublist _ _) hsorted
    · intro a b hab heq
      have hsrt := List.Sublist.trans hab (List.take_sublist _ _)
      have hsortnd : (List.insertionSort HybridSearch.rdocDesc
          (((HybridSearch.combineScores alpha bm vecs).filter
            (fun p => pyStrip p.1 ≠ "")).map
              (fun p => HybridSearch.RDoc.mk p.1 p.2 none))).Nodup :=
        ((List.perm_insertionSort HybridSearch.rdocDesc _).nodup_iff).mpr hclnd
      have hne : a ≠ b := by
        intro h
        subst h
        exact not_pair_self_sublist hsortnd hsrt
      have hmema : a ∈ ((HybridSearch.combineScores alpha bm vecs).filter
          (fun p => pyStrip p.1 ≠ "")).map (fun p => HybridSearch.RDoc.mk p.1 p.2 none) :=
        (List.perm_insertionSort HybridSearch.rdocDesc _).mem_iff.mp
          ((List.Sublist.subset hsrt) (by simp))
      have hmemb : b ∈ ((HybridSearch.combineScores alpha bm vecs).filter
          (fun p => pyStrip p.1 ≠ "")).map (fun p => HybridSearch.RDoc.mk p.1 p.2 none) :=
        (List.perm_insertionSort HybridSearch.rdocDesc _).mem_iff.mp
          ((List.Sublist.subset hsrt) (by simp))
      rcases pair_sublist_total hmema hmemb hne with h | h
      · exact h
      · exfalso
        have hba : List.Sublist [b, a] (List.insertionSort HybridSearch.rdocDesc
            (((HybridSearch.combineScores alpha bm vecs).filter
              (fun p => pyStrip p.1 ≠ "")).map
                (fun p => HybridSearch.RDoc.mk p.1 p.2 none))) :=
          List.pair_sublist_insertionSort
            (show HybridSearch.rdocDesc b a from le_of_eq heq) h
        exact hne (pair_sublist_antisymm hsortnd hsrt hba)

/-- C10 witness: two keyword texts with equal normalized scores tie at
combined score `1/2`; the claim's tie-break applied at this input keeps
them in first-contribution order. -/
theorem C10_tie_break_witness :
    (HybridSearch.combineScores (1/2)
        [⟨.num 1, some 1, "x"⟩, ⟨.num 1, some 1, "y"⟩] []).map Prod.fst
      = HybridSearch.firstContributionOrder
          [⟨.num 1, some 1, "x"⟩, ⟨.num 1, some 1, "y"⟩] []
    ∧ List.Sublist
        [(⟨"x", 1/2, none⟩ : HybridSearch.RDoc), ⟨"y", 1/2, none⟩]
        (((HybridSearch.combineScores (1/2)
            [⟨.num 1, some 1, "x"⟩, ⟨.num 1, some 1, "y"⟩] []).filter
          (fun p => pyStrip p.1 ≠ "")).map
            (fun p => HybridSearch.RDoc.mk p.1 p.2 none)) :=
  have h := C10_tie_break (1/2) [⟨.num 1, some 1, "x"⟩, ⟨.num 1, some 1, "y"⟩] [] 2
    [⟨"x", 1/2, none⟩, ⟨"y", 1/2, none⟩] (by decide)
  ⟨h.1, h.2.2 ⟨"x", 1/2, none⟩ ⟨"y", 1/2, none⟩ (List.Sublist.refl _) (by decide)⟩

theorem normElse_payloads {β : Type} (mn mx : ℚ) (rs : List (HybridSearch.NRes β)) :
    ((HybridSearch.normElse mn mx rs).1).map (fun r => r.payload)
      = rs.map (fun r => r.payload) := by
  induction rs with
  | nil => rfl
  | cons r rest ih =>
    unfold HybridSearch.normElse
    match hs : r.score with
    | .num q => simp [HybridSearch.setNorm, ih]
    | .other => simp

theorem normalize_payloads {β : Type} (rs : List (HybridSearch.NRes β)) :
    ((HybridSearch._normalize_scores rs).1).map (fun r => r.payload)
      = rs.map (fun r => r.payload) := by
  unfold HybridSearch._normalize_scores
  by_cases hre : rs.isEmpty
  · rw [if_pos hre]
  · rw [if_neg hre]
    cases hsc : HybridSearch.numScores rs with
    | nil => simp [HybridSearch.setNorm, List.map_map]
    | cons s rest =>
      show ((if List.foldl max s rest = List.foldl min s rest
          then (List.map (HybridSearch.setNorm 1) rs, false)
          else HybridSearch.normElse (List.foldl min s rest)
            (List.foldl max s rest) rs).1).map (fun r => r.payload) = _
      by_cases hmm : List.foldl max s rest = List.foldl min s rest
      · rw [if_pos hmm]
        simp [HybridSearch.setNorm, List.map_map]
      · rw [if_neg hmm]
        exact normElse_payloads _ _ rs

theorem normalize_length {β : Type} (rs : List (HybridSearch.NRes β)) :
    ((HybridSearch._normalize_scores rs).1).length = rs.length := by
  have h := congrArg List.length (normalize_payloads rs)
  simpa using h

theorem foldl_addToMap_all_new {γ : Type} (keyf : γ → String) (wf : γ → ℚ) :
    ∀ (items : List γ) (m0 : List (String × ℚ)),
      (∀ it ∈ items, keyf it ≠ "") →
      ((items.map keyf).Nodup) →
      (∀ it ∈ items, keyf it ∉ m0.map Prod.fst) →
      items.foldl (fun m it =>
        if keyf it ≠ "" then HybridSearch.addToMap m (keyf it) (wf it) else m) m0
        = m0 ++ items.map (fun it => (keyf it, wf it)) := by
  intro items
  induction items with
  | nil => intro m0 _ _ _; simp
  | cons it rest ih =>
    intro m0 hnb hnd hnew
    rw [List.foldl_cons, if_pos (hnb it (List.mem_cons_self _ _)),
      addToMap_of_not_mem m0 (keyf it) (wf it) (hnew it (List.mem_cons_self _ _))]
    rw [List.map_cons] at hnd
    rcases List.nodup_cons.mp hnd with ⟨hx, hnd2⟩
    rw [ih (m0 ++ [(keyf it, wf it)])
      (fun x hx2 => hnb x (List.mem_cons.mpr (Or.inr hx2))) hnd2 ?_]
    · rw [List.map_cons, List.append_assoc]
      rfl
    · intro x hx2
      rw [List.map_append, List.mem_append]
      rintro (h | h)
      · exact hnew x (List.mem_cons.mpr (Or.inr hx2)) h
      · have : keyf x = keyf it := by simpa using h
        exact hx (this ▸ List.mem_map_of_mem keyf hx2)

theorem combineScores_kw_only (alpha : ℚ) (kws : List HybridSearch.KwRes)
    (hnb : ∀ r ∈ kws, r.payload ≠ "")
    (hnd : (kws.map (fun r => r.payload)).Nodup) :
    HybridSearch.combineScores alpha kws []
      = kws.map (fun r => (r.payload, (1 - alpha) * r.norm_score.getD 0)) := by
  show kws.foldl (fun m doc =>
      if doc.payload ≠ "" then
        HybridSearch.addToMap m doc.payload ((1 - alpha) * doc.norm_score.getD 0)
      else m) [] = _
  have h := foldl_addToMap_all_new (fun doc : HybridSearch.KwRes => doc.payload)
    (fun doc => (1 - alpha) * doc.norm_score.getD 0) kws [] hnb hnd
    (fun it _ => by simp)
  rw [h, List.nil_append]

theorem pyStrip_ne_empty {s : String} (h : pyStrip s ≠ "") : s ≠ "" := by
  intro he
  subst he
  exact h rfl

theorem mem_payload_transfer {β : Type} {rs : List (HybridSearch.NRes β)}
    {r : HybridSearch.NRes β} (hr : r ∈ (HybridSearch._normalize_scores rs).1) :
    ∃ r0 ∈ rs, r0.payload = r.payload := by
  have hmem : r.payload ∈ ((HybridSearch._normalize_scores rs).1).map
      (fun r => r.payload) := List.mem_map_of_mem _ hr
  rw [normalize_payloads] at hmem
  rcases List.mem_map.mp hmem with ⟨r0, hr0, hp⟩
  exact ⟨r0, hr0, hp⟩

theorem mergedTop_keyword_only (alpha : ℚ) (kws : List HybridSearch.KwRes) (top_k : ℕ)
    (hne : kws ≠ [])
    (hnb : ∀ r ∈ kws, pyStrip r.payload ≠ "")
    (hnd : (kws.map (fun r => r.payload)).Nodup) :
    HybridSearch.mergedTop alpha ((HybridSearch._normalize_scores kws).1) [] top_k
      = some (HybridSearch.keywordOnlyRanked alpha kws top_k) := by
  have hpl := normalize_payloads kws
  have hnb2 : ∀ r ∈ (HybridSearch._normalize_scores kws).1, pyStrip r.payload ≠ "" := by
    intro r hr
    rcases mem_payload_transfer hr with ⟨r0, hr0, hp⟩
    rw [← hp]
    exact hnb r0 hr0
  have hnb3 : ∀ r ∈ (HybridSearch._normalize_scores kws).1, r.payload ≠ "" :=
    fun r hr => pyStrip_ne_empty (hnb2 r hr)
  have hnd2 : (((HybridSearch._normalize_scores kws).1).map (fun r => r.payload)).Nodup := by
    rw [hpl]; exact hnd
  have hcomb := combineScores_kw_only alpha ((HybridSearch._normalize_scores kws).1) hnb3 hnd2
  have hlen : ((HybridSearch._normalize_scores kws).1).length = kws.length :=
    normalize_length kws
  have hc : HybridSearch.combineScores alpha ((HybridSearch._normalize_scores kws).1) [] ≠ [] := by
    rw [hcomb]
    intro h
    have := congrArg List.length h
    rw [List.length_map, hlen] at this
    exact hne (List.length_eq_zero.mp this)
  rw [mergedTop_eq_of_ne alpha _ [] top_k hc, hcomb]
  have hfil : ((((HybridSearch._normalize_scores kws).1).map
      (fun r => (r.payload, (1 - alpha) * r.norm_score.getD 0))).filter
      (fun p => pyStrip p.1 ≠ ""))
      = ((HybridSearch._normalize_scores kws).1).map
          (fun r => (r.payload, (1 - alpha) * r.norm_score.getD 0)) := by
    rw [List.filter_eq_self]
    intro p hp
    rcases List.mem_map.mp hp with ⟨r, hr, hrp⟩
    have := hnb2 r hr
    rw [← hrp]
    simpa using this
  rw [hfil, List.map_map]
  rfl

theorem setRerankAt_length (v : ℚ) :
    ∀ (i : ℕ) (l : List HybridSearch.RDoc), (Rerank.setRerankAt i v l).length = l.length := by
  intro i l
  induction l generalizing i with
  | nil => cases i <;> rfl
  | cons d rest ih =>
    cases i with
    | zero => rfl
    | succ n => simp [Rerank.setRerankAt, ih]

theorem applyAssignments_length (items : List Rerank.JVal) :
    ∀ (docs : List HybridSearch.RDoc),
      ((Rerank.applyAssignments docs items).1).length = docs.length := by
  induction items with
  | nil => intro docs; rfl
  | cons item rest ih =>
    intro docs
    unfold Rerank.applyAssignments
    match hp : Rerank.procItem docs.length item with
    | .error _ => rfl
    | .ok none => exact ih docs
    | .ok (some (i, score)) =>
      rw [ih (Rerank.setRerankAt i score docs), setRerankAt_length score i docs]

theorem lexical_length (query : String) (docs : List HybridSearch.RDoc) :
    (Rerank._lexical_rerank query docs).length = docs.length := by
  simp [Rerank._lexical_rerank]

theorem semantic_ok_eq (responseText query : String) (docs : List HybridSearch.RDoc)
    (hd : docs.isEmpty = false) :
    Rerank._semantic_rerank (.ok responseText) query docs =
      match Rerank.jsonParse ((Rerank.spanExtract (pyStrip responseText)).getD "[]") with
      | none => Rerank._lexical_rerank query docs
      | some (.arr parsed) =>
        match Rerank.applyAssignments docs parsed with
        | (docs2, true) => Rerank._lexical_rerank query docs2
        | (docs2, false) =>
          docs2.map (fun d =>
            if d.rerank_score.isNone then { d with rerank_score := some 0 } else d)
      | some _ => Rerank._lexical_rerank query docs := by
  unfold Rerank._semantic_rerank
  rw [hd]
  simp

theorem semantic_length (gem : Except Unit String) (query : String)
    (docs : List HybridSearch.RDoc) :
    (Rerank._semantic_rerank gem query docs).length = docs.length := by
  by_cases hd : docs.isEmpty
  · have hnil : docs = [] := List.isEmpty_iff.mp hd
    subst hnil
    cases gem <;> rfl
  · have hd2 : docs.isEmpty = false := by simpa using hd
    rcases gem with u | responseText
    · cases u
      rw [semantic_rerank_raise query docs]
      exact lexical_length query docs
    · rw [semantic_ok_eq responseText query docs hd2]
      cases hj : Rerank.jsonParse ((Rerank.spanExtract (pyStrip responseText)).getD "[]") with
      | none => exact lexical_length query docs
      | some v =>
        cases v with
        | arr parsed =>
          show (match Rerank.applyAssignments docs parsed with
            | (docs2, true) => Rerank._lexical_rerank query docs2
            | (docs2, false) =>
              docs2.map (fun d : HybridSearch.RDoc =>
                if d.rerank_score.isNone then { d with rerank_score := some 0 } else d)).length
            = docs.length
          rcases ha : Rerank.applyAssignments docs parsed with ⟨docs2, flag⟩
          have hlen := applyAssignments_length parsed docs
          rw [ha] at hlen
          cases flag
          · show (docs2.map (fun d =>
                if d.rerank_score.isNone then { d with rerank_score := some 0 } else d)).length
              = docs.length
            rw [List.length_map]
            exact hlen
          · show (Rerank._lexical_rerank query docs2).length = docs.length
            rw [lexical_length query docs2]
            exact hlen
        | null => exact lexical_length query docs
        | bool b => exact lexical_length query docs
        | num q isInt => exact lexical_length query docs
        | str s => exact lexical_length query docs
        | obj ms => exact lexical_length query docs

theorem rerank_normalize_length (scores : List ℚ) :
    (Rerank._normalize_scores scores).length = scores.length := by
  unfold Rerank._normalize_scores
  match scores with
  | [] => rfl
  | s :: rest =>
    show (if List.foldl max s rest = List.foldl min s rest
        then (s :: rest).map (fun _ => (1 : ℚ))
        else (s :: rest).map (fun x =>
          (x - List.foldl min s rest) /
            (List.foldl max s rest - List.foldl min s rest))).length
      = (s :: rest).length
    by_cases h : List.foldl max s rest = List.foldl min s rest
    · rw [if_pos h, List.length_map]
    · rw [if_neg h, List.length_map]

theorem rerank_results_length (useSem : Bool) (gem : Except Unit String) (query : String)
    (docs : List HybridSearch.RDoc) (top_n : ℕ) (hd : docs ≠ []) :
    (Rerank.rerank_results useSem gem query docs top_n).length = min top_n docs.length := by
  unfold Rerank.rerank_results
  rw [if_neg (by simpa [List.isEmpty_iff] using hd)]
  have hrrlen : (if useSem then Rerank._semantic_rerank gem query docs
      else Rerank._lexical_rerank query docs).length = docs.length := by
    by_cases hu : useSem
    · rw [if_pos hu]; exact semantic_length gem query docs
    · rw [if_neg hu]; exact lexical_length query docs
  rw [List.length_take]
  congr 1
  rw [(List.perm_insertionSort Rerank.rerankDesc _).length_eq, List.length_zipWith,
    rerank_normalize_length, List.length_map, hrrlen, min_self]

theorem rerank_results_ne_nil (useSem : Bool) (gem : Except Unit String) (query : String)
    (docs : List HybridSearch.RDoc) (top_n : ℕ) (hd : docs ≠ []) (hn : 1 ≤ top_n) :
    Rerank.rerank_results useSem gem query docs top_n ≠ [] := by
  intro h
  have hlen := rerank_results_length useSem gem query docs top_n hd
  rw [h] at hlen
  have hdl : 1 ≤ docs.length := by
    cases docs with
    | nil => exact absurd rfl hd
    | cons x xs => simp
  have : 1 ≤ min top_n docs.length := le_min hn hdl
  rw [← hlen] at this
  simp at this

theorem keywordOnlyRanked_length (alpha : ℚ) (kws : List HybridSearch.KwRes) (top_k : ℕ) :
    (HybridSearch.keywordOnlyRanked alpha kws top_k).length = min top_k kws.length := by
  show ((List.insertionSort HybridSearch.rdocDesc
      ((HybridSearch._normalize_scores kws).1.map
        (fun r => HybridSearch.RDoc.mk r.payload ((1 - alpha) * r.norm_score.getD 0)
          none))).take top_k).length = _
  rw [List.length_take, (List.perm_insertionSort HybridSearch.rdocDesc _).length_eq,
    List.length_map, normalize_length]

/-- C1 counterexample: with the dense branch failing entirely, the
claim promises the keyword-only weighted list sorted descending — but
`hybrid_search` still passes that list through `rerank_results`, whose
(here lexical) re-scoring reorders it, so the returned list differs
from the keyword-only ranked list. -/
theorem C1_counterexample :
    (HybridSearch.hybrid_search false (.error ())
        (.ok [⟨.num 2, none, "banana"⟩, ⟨.num 1, none, "apple pie"⟩])
        (.error ()) (.ok []) "apple" (6/10) 2).map (fun r => (r.text, r.score))
      = [("apple pie", 0), ("banana", 2/5)]
    ∧ (HybridSearch.keywordOnlyRanked (HybridSearch.effective_alpha "apple" (6/10))
        [⟨.num 2, none, "banana"⟩, ⟨.num 1, none, "apple pie"⟩] 2).map
          (fun r => (r.text, r.score))
      = [("banana", 2/5), ("apple pie", 0)]
    ∧ HybridSearch.hybrid_search false (.error ())
        (.ok [⟨.num 2, none, "banana"⟩, ⟨.num 1, none, "apple pie"⟩])
        (.error ()) (.ok []) "apple" (6/10) 2
      ≠ HybridSearch.keywordOnlyRanked (HybridSearch.effective_alpha "apple" (6/10))
        [⟨.num 2, none, "banana"⟩, ⟨.num 1, none, "apple pie"⟩] 2 :=
  ⟨by decide, by decide, by decide⟩

/-- C1 (amended): whenever the dense branch fails entirely (the
embedding collaborator raises or returns `None`, or the vector-search
collaborator raises), `hybrid_search` does not raise and returns the
keyword-only ranked results — the keyword branch's normalized scores
weighted by `(1 - alpha)`, sorted descending, truncated to `top_k` — as
further refined by the always-run rerank stage, which may reorder and
re-score them; in particular, when keyword retrieval yields a non-empty
result list (its texts are non-blank and distinct, as the keyword index
guarantees) and `top_k ≥ 1`, the output is non-empty. -/
theorem C1_keyword_degradation (useSem : Bool) (gem : Except Unit String)
    (kwList : List HybridSearch.KwRes) (emb : Except Unit (Option Unit))
    (vec : Except Unit (List HybridSearch.VecRes)) (query : String) (alpha : ℚ)
    (top_k : ℕ)
    (hdense : emb = .error () ∨ emb = .ok none ∨ vec = .error ())
    (hnb : ∀ r ∈ kwList, pyStrip r.payload ≠ "")
    (hnd : (kwList.map (fun r => r.payload)).Nodup) :
    HybridSearch.hybrid_search useSem gem (.ok kwList) emb vec query alpha top_k
      = Rerank.rerank_results useSem gem query
          (HybridSearch.keywordOnlyRanked (HybridSearch.effective_alpha query alpha)
            kwList top_k) top_k
    ∧ (kwList ≠ [] → 1 ≤ top_k →
        HybridSearch.hybrid_search useSem gem (.ok kwList) emb vec query alpha top_k
          ≠ []) := by
  have hmain : HybridSearch.hybrid_search useSem gem (.ok kwList) emb vec query alpha top_k
      = (match HybridSearch.mergedTop (HybridSearch.effective_alpha query alpha)
          ((HybridSearch._normalize_scores kwList).1) [] top_k with
        | none => []
        | some top_results =>
          Rerank.rerank_results useSem gem query top_results top_k) := by
    rcases hdense with h | h | h
    · subst h; rfl
    · subst h; rfl
    · subst h
      rcases emb with u | o
      · rfl
      · rcases o with _ | u2 <;> rfl
  by_cases hke : kwList = []
  · subst hke
    rw [hmain]
    have hl : HybridSearch.mergedTop (HybridSearch.effective_alpha query alpha)
        ((HybridSearch._normalize_scores ([] : List HybridSearch.KwRes)).1) [] top_k
        = none := rfl
    have hr : HybridSearch.keywordOnlyRanked (HybridSearch.effective_alpha query alpha)
        ([] : List HybridSearch.KwRes) top_k = [] := by
      show List.take top_k ([] : List HybridSearch.RDoc) = []
      exact List.take_nil
    rw [hl, hr]
    exact ⟨rfl, fun hne _ => absurd rfl hne⟩
  · rw [hmain,
      mergedTop_keyword_only (HybridSearch.effective_alpha query alpha) kwList top_k
        hke hnb hnd]
    refine ⟨rfl, ?_⟩
    intro _ hk
    show Rerank.rerank_results useSem gem query
        (HybridSearch.keywordOnlyRanked (HybridSearch.effective_alpha query alpha)
          kwList top_k) top_k ≠ []
    apply rerank_results_ne_nil useSem gem query _ top_k ?_ hk
    intro h
    have hlen := keywordOnlyRanked_length (HybridSearch.effective_alpha query alpha)
      kwList top_k
    rw [h] at hlen
    have hdl : 1 ≤ kwList.length := by
      cases kwList with
      | nil => exact absurd rfl hke
      | cons x xs => simp
    have hmin : 1 ≤ min top_k kwList.length := le_min hk hdl
    rw [← hlen] at hmin
    simp at hmin

/-- C1 witness: the amended statement applied at the counterexample's
inputs — dense branch raising and a two-document keyword branch — with
every hypothesis discharged concretely. -/
theorem C1_keyword_degradation_witness :
    HybridSearch.hybrid_search false (.error ())
        (.ok [⟨.num 2, none, "banana"⟩, ⟨.num 1, none, "apple pie"⟩])
        (.error ()) (.ok []) "apple" (6/10) 2
      = Rerank.rerank_results false (.error ()) "apple"
          (HybridSearch.keywordOnlyRanked (HybridSearch.effective_alpha "apple" (6/10))
            [⟨.num 2, none, "banana"⟩, ⟨.num 1, none, "apple pie"⟩] 2) 2
    ∧ HybridSearch.hybrid_search false (.error ())
        (.ok [⟨.num 2, none, "banana"⟩, ⟨.num 1, none, "apple pie"⟩])
        (.error ()) (.ok []) "apple" (6/10) 2 ≠ [] :=
  have h := C1_keyword_degradation false (.error ())
    [⟨.num 2, none, "banana"⟩, ⟨.num 1, none, "apple pie"⟩]
    (.error ()) (.ok []) "apple" (6/10) 2 (Or.inl rfl) (by decide) (by decide)
  ⟨h.1, h.2 (by decide) (by decide)⟩

end Astramind
